import Mathlib

/-!
Verification of the LOB (limit order book) processor: a shallow embedding of
the repository's Rust sources (src/lib.rs, src/basic.rs, src/improved.rs)
together with proofs about the embedded definitions.

Modelling conventions:
* Machine integers (u64, usize, u8) are modelled as natural numbers; the
  sources never overflow in the regions the claims speak about, and wherever a
  raw 64-bit read occurs the value is the little-endian value of 8 bytes,
  which is below 2^64 by construction.
* Prices are IEEE-754 binary64 in the source.  The claims restrict attention
  to non-NaN prices, on which f64 equality and ordering form a linear order
  (with -0.0 identified with 0.0); any such finite set of values
  order-embeds into the rationals.  We therefore model a price as a rational
  number.  The byte-level drivers decode a price with f64::from_bits; this
  decoding is kept as an explicit parameter fb : bit-pattern -> price, so
  every driver theorem holds for every interpretation of the bits.  For
  positive finite doubles (the feed contract), numeric order and equality of
  doubles coincide with order and equality of their bit patterns, so concrete
  counterexamples instantiate fb with the cast of the bit pattern.
* The fixed 32-cell arrays of ImprovedSide are modelled by the list of their
  first count cells: every read in the source (find_position, get_l, the
  fast paths) is guarded to indices below count, and the shifting writes of
  update_l and remove_l act on that prefix exactly as List.insertIdx /
  List.eraseIdx / List.set do.
* The hash maps (std HashMap, FnvHashMap) are modelled as association lists
  with insert-or-replace; the claims never depend on iteration order.
* Fallible paths (anyhow::Result) are modelled with Except String, carrying
  the source's error messages.
-/

/-- Tags for the registry keys and sequence numbers (u64 in src/lib.rs). -/
abbrev SecurityId := Nat

/-- Sequence number, u64 in src/lib.rs. -/
abbrev SeqNo := Nat

/-- Quantity, u64 in src/lib.rs. -/
abbrev Qty := Nat

/-- Price: see the modelling conventions above (f64 in the source,
restricted by the claims to non-NaN values). -/
abbrev Price := ℚ

/-- Side enum from src/lib.rs (B = 0 = Bid, A = 1 = Ask). -/
inductive Side where
  | B
  | A
deriving DecidableEq, Repr

/-- Side::from_u8 from src/lib.rs lines 64-71. -/
def Side.from_u8 (val : Nat) : Option Side :=
  match val with
  | 0 => some Side.B
  | 1 => some Side.A
  | _ => none

/-- Level struct from src/lib.rs lines 73-77. -/
structure Level where
  price : Price
  quantity : Qty
deriving DecidableEq, Repr

instance : Inhabited Level := ⟨⟨0, 0⟩⟩

/-- Result of a position search, mirroring Rust's Result of usize over usize:
found is Ok (a level with the price exists at this index), insert is Err
(the index at which a new level would be inserted). -/
inductive FindRes where
  | found (i : Nat)
  | insert (i : Nat)
deriving DecidableEq, Repr

/-- Strict precedence of prices within a side: x comes strictly before y in
the container.  Bids store prices high to low, asks low to high. -/
def sideLt (is_b : Bool) (x y : Price) : Prop :=
  if is_b then y < x else x < y

instance (is_b : Bool) (x y : Price) : Decidable (sideLt is_b x y) := by
  unfold sideLt
  infer_instance

/-! ## Reference container: Basic (src/basic.rs) -/

/-- Basic struct from src/basic.rs lines 9-13: a sorted vector of levels plus
the side flag. -/
structure Basic where
  levels : List Level
  is_b : Bool
deriving DecidableEq, Repr

/-- Basic::new from src/basic.rs lines 16-21 (the capacity hint is not
observable). -/
def Basic.new (is_b : Bool) : Basic :=
  { levels := [], is_b := is_b }

/-- Narrowing loop of Rust core's slice::binary_search_by (the branchless
implementation): repeatedly halve the window, moving base to mid unless the
comparator answers Greater.  The window shrinks by at least one each
iteration, so the loop is driven by a structural fuel argument that the
caller sets to the initial window size (which provably suffices; with that
fuel the fuel-exhausted branch is unreachable). -/
def bsLoop (g : Nat → Ordering) : Nat → Nat → Nat → Nat
  | 0, base, _ => base
  | fuel + 1, base, size =>
    if 1 < size then
      bsLoop g fuel
        (if g (base + size / 2) = Ordering.gt then base else base + size / 2)
        (size - size / 2)
    else base

/-- Rust core's slice::binary_search_by on a slice of the given length, with
comparator g: Err 0 on the empty slice, otherwise narrow with bsLoop and
decide from the final probe (Ok base on Equal, Err (base+1) on Less,
Err base on Greater). -/
def rustBinarySearch (g : Nat → Ordering) (len : Nat) : FindRes :=
  if len = 0 then FindRes.insert 0
  else
    match g (bsLoop g len 0 len) with
    | Ordering.eq => FindRes.found (bsLoop g len 0 len)
    | Ordering.lt => FindRes.insert (bsLoop g len 0 len + 1)
    | Ordering.gt => FindRes.insert (bsLoop g len 0 len)

/-- Basic::find_position from src/basic.rs lines 23-33: binary search over
the level vector, comparing price with the element's price for bids and the
element's price with price for asks (partial_cmp on non-NaN floats is
compare). -/
def Basic.find_position (s : Basic) (price : Price) : FindRes :=
  rustBinarySearch
    (fun i =>
      if s.is_b then compare price ((s.levels.getD i default).price)
      else compare ((s.levels.getD i default).price) price)
    s.levels.length

/-- BookSide::update_l for Basic, src/basic.rs lines 37-53: on a match set
the quantity in place, otherwise insert at the returned position. -/
def Basic.update_l (s : Basic) (price : Price) (qty : Qty) : Basic :=
  match s.find_position price with
  | FindRes.found pos =>
      { s with levels := s.levels.modify (fun lv => { lv with quantity := qty }) pos }
  | FindRes.insert pos =>
      { s with levels := s.levels.insertIdx pos { price := price, quantity := qty } }

/-- BookSide::remove_l for Basic, src/basic.rs lines 55-59. -/
def Basic.remove_l (s : Basic) (price : Price) : Basic :=
  match s.find_position price with
  | FindRes.found pos => { s with levels := s.levels.eraseIdx pos }
  | FindRes.insert _ => s

/-- BookSide::get_l for Basic, src/basic.rs lines 61-63. -/
def Basic.get_l (s : Basic) : List Level :=
  s.levels

/-! ## Fast container: ImprovedSide (src/improved.rs) -/

/-- Capacity of the fast container, src/improved.rs line 10. -/
def MAX_LEVELS : Nat := 32

/-- ImprovedSide from src/improved.rs lines 13-20; the two 32-cell arrays are
modelled by their first count cells (see the conventions above), so
prices.length plays the role of count and the invariant
qtys.length = prices.length mirrors the arrays moving in lockstep. -/
structure ImprovedSide where
  prices : List Price
  qtys : List Qty
  is_b : Bool
deriving DecidableEq, Repr

/-- ImprovedSide::new from src/improved.rs lines 23-30. -/
def ImprovedSide.new (is_bid : Bool) : ImprovedSide :=
  { prices := [], qtys := [], is_b := is_bid }

/-- Scalar tail of ImprovedSide::find_position, src/improved.rs lines 80-92:
walk the remaining elements (starting at absolute index i); equality first,
then the side's insert test (bids price greater than the element, asks price
less than the element). -/
def scalarLoop (is_b : Bool) (price : Price) : List Price → Nat → FindRes
  | [], i => FindRes.insert i
  | x :: xs, i =>
    if price = x then FindRes.found i
    else if (if is_b then x < price else price < x) then FindRes.insert i
    else scalarLoop is_b price xs (i + 1)

/-- Vectorised loop of ImprovedSide::find_position, src/improved.rs lines
43-77: while four elements remain, test the whole 4-chunk for equality
(lowest matching lane wins, as trailing_zeros of the movemask does), then the
whole chunk for the side's insert condition, else advance; the tail is
handled by scalarLoop.  Each iteration consumes four elements, so the loop is
driven by a structural fuel argument that the caller sets to the list length
(which provably suffices; with that fuel the fuel-exhausted branch only ever
sees the empty list, on which it agrees with the loop exit). -/
def chunkLoop (is_b : Bool) (price : Price) : Nat → List Price → Nat → FindRes
  | 0, l, i => scalarLoop is_b price l i
  | fuel + 1, l, i =>
    if 4 ≤ l.length then
      match (l.take 4).findIdx? (fun x => decide (x = price)) with
      | some j => FindRes.found (i + j)
      | none =>
        match (l.take 4).findIdx?
            (fun x => if is_b then decide (x < price) else decide (price < x)) with
        | some j => FindRes.insert (i + j)
        | none => chunkLoop is_b price fuel (l.drop 4) (i + 4)
    else scalarLoop is_b price l i

/-- ImprovedSide::find_position, src/improved.rs lines 34-96: Err 0 when
empty, otherwise the chunked scan from index 0. -/
def ImprovedSide.find_position (s : ImprovedSide) (price : Price) : FindRes :=
  if s.prices.length = 0 then FindRes.insert 0
  else chunkLoop s.is_b price s.prices.length s.prices 0

/-- BookSide::update_l for ImprovedSide, src/improved.rs lines 100-138: the
fast path overwrites the quantity of the best level when its price matches;
a found position overwrites that quantity; an insert position shifts the
tails of both arrays right and writes the new level, but only when the side
is not full (count below MAX_LEVELS), otherwise the update is dropped. -/
def ImprovedSide.update_l (s : ImprovedSide) (price : Price) (qty : Qty) : ImprovedSide :=
  if s.prices.head? = some price then
    { s with qtys := s.qtys.set 0 qty }
  else
    match s.find_position price with
    | FindRes.found pos => { s with qtys := s.qtys.set pos qty }
    | FindRes.insert pos =>
        if s.prices.length < MAX_LEVELS then
          { s with
            prices := s.prices.insertIdx pos price
            qtys := s.qtys.insertIdx pos qty }
        else s

/-- BookSide::remove_l for ImprovedSide, src/improved.rs lines 141-181: the
fast path drops the best level when its price matches (shifting both arrays
left); otherwise a found position is erased by the same left shift, and a
missing price is a no-op. -/
def ImprovedSide.remove_l (s : ImprovedSide) (price : Price) : ImprovedSide :=
  if s.prices.head? = some price then
    { s with prices := s.prices.tail, qtys := s.qtys.tail }
  else
    match s.find_position price with
    | FindRes.found pos =>
        { s with prices := s.prices.eraseIdx pos, qtys := s.qtys.eraseIdx pos }
    | FindRes.insert _ => s

/-- BookSide::get_l for ImprovedSide, src/improved.rs lines 183-192: read the
first count entries of both arrays in order. -/
def ImprovedSide.get_l (s : ImprovedSide) : List Level :=
  List.zipWith (fun p q => { price := p, quantity := q }) s.prices s.qtys

/-! ## Book and registry (src/lib.rs) -/

/-- The BookSide trait of src/lib.rs lines 79-83, as a typeclass over the
container type. -/
class BookSideC (B : Type) where
  update_l : B → Price → Qty → B
  remove_l : B → Price → B
  get_l : B → List Level

instance : BookSideC Basic :=
  { update_l := Basic.update_l, remove_l := Basic.remove_l, get_l := Basic.get_l }

instance : BookSideC ImprovedSide :=
  { update_l := ImprovedSide.update_l
    remove_l := ImprovedSide.remove_l
    get_l := ImprovedSide.get_l }

/-- Lob struct from src/lib.rs lines 85-90. -/
structure Lob (B : Type) where
  security_id : SecurityId
  bids : B
  asks : B
  last_update_seq : Option SeqNo
deriving DecidableEq

/-- Lob::new from src/lib.rs lines 93-101. -/
def Lob.new {B : Type} (security_id : SecurityId) (bids asks : B) : Lob B :=
  { security_id := security_id, bids := bids, asks := asks, last_update_seq := none }

/-- Lob::update from src/lib.rs lines 103-121: route by side, treating a zero
quantity as removal. -/
def Lob.update {B : Type} [BookSideC B] (book : Lob B) (side : Side) (price : Price)
    (qty : Qty) : Lob B :=
  match side with
  | Side.B =>
      if qty = 0 then { book with bids := BookSideC.remove_l book.bids price }
      else { book with bids := BookSideC.update_l book.bids price qty }
  | Side.A =>
      if qty = 0 then { book with asks := BookSideC.remove_l book.asks price }
      else { book with asks := BookSideC.update_l book.asks price qty }

/-- The book registry (HashMap in basic.rs, FnvHashMap in improved.rs),
modelled as an association list with unique keys; lookups and
insert-or-replace are the only operations the drivers perform. -/
def Books (B : Type) := List (SecurityId × Lob B)

instance {B : Type} [DecidableEq B] : DecidableEq (Books B) :=
  inferInstanceAs (DecidableEq (List (SecurityId × Lob B)))

instance decEqIncTuple :
    DecidableEq (SecurityId × SeqNo × Nat × List (Side × Price × Qty)) :=
  have d1 : DecidableEq (Nat × List (Side × Price × Qty)) := instDecidableEqProd
  have d2 : DecidableEq (Nat × Nat × List (Side × Price × Qty)) := instDecidableEqProd
  instDecidableEqProd

instance exceptDecEq {E A : Type} [DecidableEq E] [DecidableEq A] :
    DecidableEq (Except E A) := fun a b =>
  match a, b with
  | Except.error e, Except.error f =>
      if h : e = f then isTrue (by rw [h]) else isFalse fun hc => h (by injection hc)
  | Except.error _, Except.ok _ => isFalse fun hc => Except.noConfusion hc
  | Except.ok _, Except.error _ => isFalse fun hc => Except.noConfusion hc
  | Except.ok x, Except.ok y =>
      if h : x = y then isTrue (by rw [h]) else isFalse fun hc => h (by injection hc)

/-- HashMap lookup (get_mut / get). -/
def getBook {B : Type} (books : Books B) (sec : SecurityId) : Option (Lob B) :=
  match books with
  | [] => none
  | (k, b) :: rest => if k = sec then some b else getBook rest sec

/-- HashMap insert: replace the value of an existing key, otherwise append;
this also models mutation through get_mut of an existing entry. -/
def insertBook {B : Type} (books : Books B) (sec : SecurityId) (book : Lob B) : Books B :=
  match books with
  | [] => [(sec, book)]
  | (k, b) :: rest =>
      if k = sec then (k, book) :: rest else (k, b) :: insertBook rest sec book

/-! ## Record codec (byte level) -/

/-- Record sizes from src/lib.rs lines 17-30. -/
def SNAPSHOT_SIZE : Nat := 8 + 8 + 8 + (8 + 8) * 10

/-- Incremental header size from src/lib.rs line 24. -/
def INCREMENTAL_HEADER_SIZE : Nat := 8 + 8 + 8 + 8

/-- Per-update payload size from src/lib.rs line 30. -/
def INCREMENTAL_SIZE : Nat := 1 + 8 + 8

/-- Modulus of usize arithmetic (the target is 64-bit): products and sums of
usize values in the source wrap at this modulus in release builds. -/
def USIZE_MOD : Nat := 2 ^ 64

/-- Little-endian u64 read of the 8 bytes at pos (u64::from_le_bytes and
ptr::read_unaligned of a u64 in the sources); a buffer is a list of byte
values.  Out-of-range bytes read as 0; every driver theorem below guards its
reads the way the source does, so this total default is never relied upon. -/
def u64le (data : List Nat) (pos : Nat) : Nat :=
  data.getD pos 0 +
    256 * (data.getD (pos + 1) 0 +
      256 * (data.getD (pos + 2) 0 +
        256 * (data.getD (pos + 3) 0 +
          256 * (data.getD (pos + 4) 0 +
            256 * (data.getD (pos + 5) 0 +
              256 * (data.getD (pos + 6) 0 +
                256 * data.getD (pos + 7) 0))))))

/-! ## Reference driver: BasicProcessor (src/basic.rs) -/

/-- Update-triple parsing loop of BasicProcessor::parse_incremental,
src/basic.rs lines 295-311: read side byte (validated with Side::from_u8,
failing with the source's message on an invalid byte), price bits
(interpreted through fb) and quantity, for the given number of updates.
Each read in the source is a checked index or slice that panics when out of
bounds; a panic aborts the call, which the model renders as a distinguished
error in the checked order of the source (index data[pos], then the side
check, then the two 8-byte slices).  No theorem depends on the panic value,
only on the call not completing normally. -/
def basicParseUpdates (fb : Nat → Price) (data : List Nat) :
    Nat → Nat → Except String (List (Side × Price × Qty))
  | _, 0 => Except.ok []
  | pos, n + 1 =>
    if data.length ≤ pos then Except.error "panic: index out of bounds"
    else
      match Side.from_u8 (data.getD pos 0) with
      | none => Except.error ("Invalid side: " ++ toString (data.getD pos 0))
      | some side =>
          if data.length < pos + 9 then Except.error "panic: range end out of bounds"
          else if data.length < pos + 17 then Except.error "panic: range end out of bounds"
          else
            match basicParseUpdates fb data (pos + INCREMENTAL_SIZE) n with
            | Except.error e => Except.error e
            | Except.ok rest =>
                Except.ok ((side, fb (u64le data (pos + 1)), u64le data (pos + 9)) :: rest)

/-- BasicProcessor::parse_incremental, src/basic.rs lines 262-314: read the
header fields at the offset (the four 8-byte header slices panic when the
header does not fit, modelled like the update-loop panics), fail with the
source's message when the declared updates do not fit the buffer, else parse
the updates.  The truncation test is the source's usize arithmetic: line 288
computes updates_size = num_updates * INCREMENTAL_SIZE with a wrapping
64-bit product, and line 289 compares pos + updates_size (a wrapping sum)
with the buffer length.  The source returns the position after the record;
for every record that parses, that position is offset + header + 17 times
the update count (the per-update usize increments cannot wrap before an
out-of-bounds read panics), which the callers below recompute. -/
def basicParseIncremental (fb : Nat → Price) (data : List Nat) (offset : Nat) :
    Except String (SecurityId × SeqNo × Nat × List (Side × Price × Qty)) :=
  if data.length < offset + INCREMENTAL_HEADER_SIZE then
    Except.error "panic: range end out of bounds"
  else
    let seq_no := u64le data (offset + 8)
    let security_id := u64le data (offset + 16)
    let num_updates := u64le data (offset + 24)
    if (offset + INCREMENTAL_HEADER_SIZE + num_updates * INCREMENTAL_SIZE % USIZE_MOD) %
        USIZE_MOD > data.length then
      Except.error "File is broken, not enough data"
    else
      match basicParseUpdates fb data (offset + INCREMENTAL_HEADER_SIZE) num_updates with
      | Except.error e => Except.error e
      | Except.ok updates => Except.ok (security_id, seq_no, num_updates, updates)

/-- Application of a decoded update list to a book in record order (the
for-loops over updates in both process_files bodies, via Lob::update). -/
def applyUpdates {B : Type} [BookSideC B] (book : Lob B)
    (updates : List (Side × Price × Qty)) : Lob B :=
  updates.foldl (fun b u => b.update u.1 u.2.1 u.2.2) book

/-- One iteration of the pass-2 loop of BasicProcessor::process_files,
src/basic.rs lines 102-128: decode the record fully (including side bytes),
then apply it only when its sequence number exceeds max_snapshot_seq -- to
the existing book, or to a freshly created book for an unseen security.
Returns the next offset and the new registry. -/
def basicStep (fb : Nat → Price) (data : List Nat) (max_snapshot_seq : Nat)
    (offset : Nat) (books : Books Basic) : Except String (Nat × Books Basic) :=
  match basicParseIncremental fb data offset with
  | Except.error e => Except.error e
  | Except.ok (security_id, seq_no, num_updates, updates) =>
      let books' :=
        if max_snapshot_seq < seq_no then
          match getBook books security_id with
          | some book =>
              insertBook books security_id
                { applyUpdates book updates with last_update_seq := some seq_no }
          | none =>
              insertBook books security_id
                { applyUpdates (Lob.new security_id (Basic.new true) (Basic.new false))
                    updates with
                  last_update_seq := some seq_no }
        else books
      Except.ok (offset + INCREMENTAL_HEADER_SIZE + num_updates * INCREMENTAL_SIZE, books')

/-- The pass-2 loop of BasicProcessor::process_files: iterate basicStep while
a full header fits.  The loop advances by at least the header size each
iteration, so data.length + 1 steps of fuel always suffice; the fuel-exhausted
branch is unreachable from the entry point below. -/
def basicPass2Go (fb : Nat → Price) (data : List Nat) (max_snapshot_seq : Nat) :
    Nat → Nat → Books Basic → Except String (Books Basic)
  | 0, _, books => Except.ok books
  | fuel + 1, offset, books =>
    if offset + INCREMENTAL_HEADER_SIZE ≤ data.length then
      match basicStep fb data max_snapshot_seq offset books with
      | Except.error e => Except.error e
      | Except.ok (offset', books') => basicPass2Go fb data max_snapshot_seq fuel offset' books'
    else Except.ok books

/-- Pass 2 of BasicProcessor::process_files over the incremental buffer. -/
def basicProcessIncrementals (fb : Nat → Price) (data : List Nat) (max_snapshot_seq : Nat)
    (books : Books Basic) : Except String (Books Basic) :=
  basicPass2Go fb data max_snapshot_seq (data.length + 1) 0 books

/-! ## Snapshot codec (pass 1) -/

/-- The five level groups of a snapshot record at the given offset, as raw
(bid_price_bits, bid_qty, ask_price_bits, ask_qty) quadruples; group i lives
at byte offset 24 + 32 i of the record (src/lib.rs layout, read identically
by both drivers). -/
def snapshotGroups (data : List Nat) (offset : Nat) : List (Nat × Nat × Nat × Nat) :=
  (List.range 5).map fun i =>
    (u64le data (offset + 24 + 32 * i),
     u64le data (offset + 32 + 32 * i),
     u64le data (offset + 40 + 32 * i),
     u64le data (offset + 48 + 32 * i))

/-- The non-empty bid levels of a snapshot record as the Reference driver
collects them (src/basic.rs lines 217-239): decoded price positive and
quantity positive, in record order. -/
def basicBidLevels (fb : Nat → Price) (data : List Nat) (offset : Nat) :
    List (Price × Qty) :=
  ((snapshotGroups data offset).filter fun g =>
    decide (0 < fb g.1) && decide (0 < g.2.1)).map fun g => (fb g.1, g.2.1)

/-- The non-empty ask levels of a snapshot record as the Reference driver
collects them, in record order. -/
def basicAskLevels (fb : Nat → Price) (data : List Nat) (offset : Nat) :
    List (Price × Qty) :=
  ((snapshotGroups data offset).filter fun g =>
    decide (0 < fb g.2.2.1) && decide (0 < g.2.2.2)).map fun g => (fb g.2.2.1, g.2.2.2)

/-- BasicProcessor::parse_snapshot, src/basic.rs lines 190-259: keep the
levels whose decoded price is positive and whose quantity is positive, in
record order; sort bids descending and asks ascending by price (sort_by with
the respective comparators); load the sorted lists into the two sides and
stamp the book with the record's sequence number. -/
def basicParseSnapshot (fb : Nat → Price) (data : List Nat) (offset : Nat) :
    SecurityId × SeqNo × Lob Basic :=
  let seq_no := u64le data (offset + 8)
  let security_id := u64le data (offset + 16)
  (security_id, seq_no,
    { security_id := security_id
      bids :=
        { levels := ((basicBidLevels fb data offset).insertionSort
            fun a b => b.1 ≤ a.1).map fun pq => { price := pq.1, quantity := pq.2 }
          is_b := true }
      asks :=
        { levels := ((basicAskLevels fb data offset).insertionSort
            fun a b => a.1 ≤ b.1).map fun pq => { price := pq.1, quantity := pq.2 }
          is_b := false }
      last_update_seq := some seq_no })

/-- The non-empty bid levels of a snapshot record as the Fast driver collects
them (src/improved.rs lines 252-272 and 434-454): price bits nonzero and
quantity nonzero, in record order. -/
def improvedBidLevels (fb : Nat → Price) (data : List Nat) (offset : Nat) :
    List (Price × Qty) :=
  ((snapshotGroups data offset).filter fun g =>
    decide (g.1 ≠ 0) && decide (g.2.1 ≠ 0)).map fun g => (fb g.1, g.2.1)

/-- The non-empty ask levels of a snapshot record as the Fast driver collects
them, in record order. -/
def improvedAskLevels (fb : Nat → Price) (data : List Nat) (offset : Nat) :
    List (Price × Qty) :=
  ((snapshotGroups data offset).filter fun g =>
    decide (g.2.2.1 ≠ 0) && decide (g.2.2.2 ≠ 0)).map fun g => (fb g.2.2.1, g.2.2.2)

/-- Snapshot ingestion of ImprovedProcessor (process_files pass 1,
src/improved.rs lines 223-305, and the snapshot arm of process_stream, lines
414-460): keep the levels whose price bits and quantity are nonzero, in
record order, and copy them into the side arrays without sorting. -/
def improvedParseSnapshot (fb : Nat → Price) (data : List Nat) (offset : Nat) :
    SecurityId × SeqNo × Lob ImprovedSide :=
  let seq_no := u64le data (offset + 8)
  let security_id := u64le data (offset + 16)
  (security_id, seq_no,
    { security_id := security_id
      bids :=
        { prices := (improvedBidLevels fb data offset).map Prod.fst
          qtys := (improvedBidLevels fb data offset).map Prod.snd
          is_b := true }
      asks :=
        { prices := (improvedAskLevels fb data offset).map Prod.fst
          qtys := (improvedAskLevels fb data offset).map Prod.snd
          is_b := false }
      last_update_seq := some seq_no })

/-! ## Fast driver: ImprovedProcessor (src/improved.rs) -/

/-- Hot-path update loop of ImprovedProcessor::process_files (src/improved.rs
lines 332-362) and of the incremental arm of process_stream (lines 473-495):
apply num raw updates starting at pos to an existing book; side byte 0 is a
bid, 1 an ask, zero quantity removes, and any other side byte is ignored
(debug_assert compiles away in release). -/
def improvedHotGo (fb : Nat → Price) (data : List Nat) :
    Nat → Nat → Lob ImprovedSide → Lob ImprovedSide
  | _, 0, book => book
  | pos, n + 1, book =>
    let side := data.getD pos 0
    let price := fb (u64le data (pos + 1))
    let qty := u64le data (pos + 9)
    let book' :=
      if side = 0 then
        if qty = 0 then { book with bids := book.bids.remove_l price }
        else { book with bids := book.bids.update_l price qty }
      else if side = 1 then
        if qty = 0 then { book with asks := book.asks.remove_l price }
        else { book with asks := book.asks.update_l price qty }
      else book
    improvedHotGo fb data (pos + INCREMENTAL_SIZE) n book'

/-- Cold-path update loop of ImprovedProcessor::process_files (src/improved.rs
lines 373-382): a new book is built with Lob::update, and the side byte is
validated with Side::from_u8, failing with the source's context message. -/
def improvedColdGo (fb : Nat → Price) (data : List Nat) :
    Nat → Nat → Lob ImprovedSide → Except String (Lob ImprovedSide)
  | _, 0, book => Except.ok book
  | pos, n + 1, book =>
    match Side.from_u8 (data.getD pos 0) with
    | none => Except.error "Invalid side"
    | some side =>
        improvedColdGo fb data (pos + INCREMENTAL_SIZE) n
          (book.update side (fb (u64le data (pos + 1))) (u64le data (pos + 9)))

/-- One iteration of the pass-2 loop of ImprovedProcessor::process_files,
src/improved.rs lines 312-394: read the header, fail when the declared
updates do not fit, and only then look at the sequence number -- a filtered
record (seq_no at most max_snapshot_seq) is skipped by advancing the offset
without touching its update bytes.  The length test is the source's usize
arithmetic (line 324): a wrapping 64-bit product num_updates times
INCREMENTAL_SIZE added (wrapping) to offset + 32.  The offsets this model
returns are the exact sums, which agree with the source's wrapping updates
whenever the length test passes without a wrapped product (every buffer a
real mapping can supply); when the wrapped test passes spuriously, the
source's subsequent behaviour -- unchecked raw reads past the mapping on the
apply paths, a wrapped offset advance on the skip path -- is undefined or
out of scope and is covered by no claim below. -/
def improvedStep (fb : Nat → Price) (data : List Nat) (max_snapshot_seq : Nat)
    (offset : Nat) (books : Books ImprovedSide) :
    Except String (Nat × Books ImprovedSide) :=
  let seq_no := u64le data (offset + 8)
  let security_id := u64le data (offset + 16)
  let num_updates := u64le data (offset + 24)
  if (offset + INCREMENTAL_HEADER_SIZE + num_updates * INCREMENTAL_SIZE % USIZE_MOD) %
      USIZE_MOD > data.length then
    Except.error "Not enough data for updates"
  else if max_snapshot_seq < seq_no then
    match getBook books security_id with
    | some book =>
        Except.ok
          (offset + INCREMENTAL_HEADER_SIZE + num_updates * INCREMENTAL_SIZE,
           insertBook books security_id
             { improvedHotGo fb data (offset + INCREMENTAL_HEADER_SIZE) num_updates book with
               last_update_seq := some seq_no })
    | none =>
        match improvedColdGo fb data (offset + INCREMENTAL_HEADER_SIZE) num_updates
            (Lob.new security_id (ImprovedSide.new true) (ImprovedSide.new false)) with
        | Except.error e => Except.error e
        | Except.ok bk =>
            Except.ok
              (offset + INCREMENTAL_HEADER_SIZE + num_updates * INCREMENTAL_SIZE,
               insertBook books security_id { bk with last_update_seq := some seq_no })
  else
    Except.ok (offset + INCREMENTAL_HEADER_SIZE + num_updates * INCREMENTAL_SIZE, books)

/-- The pass-2 loop of ImprovedProcessor::process_files, fuelled like
basicPass2Go. -/
def improvedPass2Go (fb : Nat → Price) (data : List Nat) (max_snapshot_seq : Nat) :
    Nat → Nat → Books ImprovedSide → Except String (Books ImprovedSide)
  | 0, _, books => Except.ok books
  | fuel + 1, offset, books =>
    if offset + INCREMENTAL_HEADER_SIZE ≤ data.length then
      match improvedStep fb data max_snapshot_seq offset books with
      | Except.error e => Except.error e
      | Except.ok (offset', books') =>
          improvedPass2Go fb data max_snapshot_seq fuel offset' books'
    else Except.ok books

/-- Pass 2 of ImprovedProcessor::process_files over the incremental buffer. -/
def improvedProcessIncrementals (fb : Nat → Price) (data : List Nat)
    (max_snapshot_seq : Nat) (books : Books ImprovedSide) :
    Except String (Books ImprovedSide) :=
  improvedPass2Go fb data max_snapshot_seq (data.length + 1) 0 books

/-! ## Stream drivers (process_stream in both sources) -/

/-- MessageType from src/lib.rs lines 33-39. -/
inductive MessageType where
  | snapshot
  | incremental
  | endOfSnapshot
deriving DecidableEq, Repr

/-- StreamMessage from src/lib.rs lines 52-55. -/
inductive StreamMessage where
  | data (t : MessageType) (bytes : List Nat)
  | endOfSnapshot

/-- The loop state of process_stream: the registry, the phase flag
(is_snapshot in basic.rs, in_snapshot_phase in improved.rs, initialized to
true) and the running maximum snapshot sequence number. -/
structure StreamState (B : Type) where
  books : Books B
  is_snapshot : Bool
  max_snapshot_seq : Nat
deriving DecidableEq

/-- Initial state of both stream loops. -/
def initialStreamState (B : Type) : StreamState B :=
  { books := [], is_snapshot := true, max_snapshot_seq := 0 }

/-- One received message of BasicProcessor::process_stream, src/basic.rs
lines 146-185: snapshot data counts only during the snapshot phase,
incremental data only after it (and is parsed with parse_incremental, whose
error aborts the driver); a data frame with any other tag falls into the
catch-all arm and does nothing; the EndOfSnapshot control frame clears the
phase flag. -/
def basicStreamStep (fb : Nat → Price) (st : StreamState Basic) (msg : StreamMessage) :
    Except String (StreamState Basic) :=
  match msg with
  | StreamMessage.data MessageType.snapshot d =>
      if st.is_snapshot then
        let r := basicParseSnapshot fb d 0
        Except.ok
          { books := insertBook st.books r.1 r.2.2
            is_snapshot := st.is_snapshot
            max_snapshot_seq := max st.max_snapshot_seq r.2.1 }
      else Except.ok st
  | StreamMessage.data MessageType.incremental d =>
      if st.is_snapshot then Except.ok st
      else
        match basicParseIncremental fb d 0 with
        | Except.error e => Except.error e
        | Except.ok (security_id, seq_no, _, updates) =>
            if st.max_snapshot_seq < seq_no then
              match getBook st.books security_id with
              | some book =>
                  Except.ok
                    { st with
                      books := insertBook st.books security_id
                        { applyUpdates book updates with last_update_seq := some seq_no } }
              | none =>
                  Except.ok
                    { st with
                      books := insertBook st.books security_id
                        { applyUpdates
                            (Lob.new security_id (Basic.new true) (Basic.new false))
                            updates with
                          last_update_seq := some seq_no } }
            else Except.ok st
  | StreamMessage.data MessageType.endOfSnapshot _ => Except.ok st
  | StreamMessage.endOfSnapshot => Except.ok { st with is_snapshot := false }

/-- Cold-path update loop of the incremental arm of
ImprovedProcessor::process_stream, src/improved.rs lines 505-519: a new book
is built with Lob::update, and a side byte other than 0 or 1 is skipped
(no validation in the stream). -/
def improvedStreamColdGo (fb : Nat → Price) (data : List Nat) :
    Nat → Nat → Lob ImprovedSide → Lob ImprovedSide
  | _, 0, book => book
  | pos, n + 1, book =>
    let side := data.getD pos 0
    let price := fb (u64le data (pos + 1))
    let qty := u64le data (pos + 9)
    let book' :=
      if side = 0 then book.update Side.B price qty
      else if side = 1 then book.update Side.A price qty
      else book
    improvedStreamColdGo fb data (pos + INCREMENTAL_SIZE) n book'

/-- One received message of ImprovedProcessor::process_stream,
src/improved.rs lines 411-534; the incremental arm never fails (no length
check and no side validation on any path), so the step is total. -/
def improvedStreamStep (fb : Nat → Price) (st : StreamState ImprovedSide)
    (msg : StreamMessage) : StreamState ImprovedSide :=
  match msg with
  | StreamMessage.data MessageType.snapshot d =>
      if st.is_snapshot then
        let r := improvedParseSnapshot fb d 0
        { books := insertBook st.books r.1 r.2.2
          is_snapshot := st.is_snapshot
          max_snapshot_seq := max st.max_snapshot_seq r.2.1 }
      else st
  | StreamMessage.data MessageType.incremental d =>
      if st.is_snapshot then st
      else
        let seq_no := u64le d 8
        let security_id := u64le d 16
        let num_updates := u64le d 24
        if st.max_snapshot_seq < seq_no then
          match getBook st.books security_id with
          | some book =>
              { st with
                books := insertBook st.books security_id
                  { improvedHotGo fb d INCREMENTAL_HEADER_SIZE num_updates book with
                    last_update_seq := some seq_no } }
          | none =>
              { st with
                books := insertBook st.books security_id
                  { improvedStreamColdGo fb d INCREMENTAL_HEADER_SIZE num_updates
                      (Lob.new security_id (ImprovedSide.new true)
                        (ImprovedSide.new false)) with
                    last_update_seq := some seq_no } }
        else st
  | StreamMessage.data MessageType.endOfSnapshot _ => st
  | StreamMessage.endOfSnapshot => { st with is_snapshot := false }

/-! ## Operation sequences (for the refinement claim) -/

/-- One container-level operation of the BookSide contract. -/
inductive SideOp where
  | update (price : Price) (qty : Qty)
  | remove (price : Price)

/-- Application of one operation to the Reference container. -/
def applyOpBasic (s : Basic) : SideOp → Basic
  | SideOp.update p q => s.update_l p q
  | SideOp.remove p => s.remove_l p

/-- Application of one operation to the Fast container. -/
def applyOpImproved (s : ImprovedSide) : SideOp → ImprovedSide
  | SideOp.update p q => s.update_l p q
  | SideOp.remove p => s.remove_l p

/-- A sequence of operations applied to the Reference container of a side,
starting empty. -/
def applyOpsBasic (is_b : Bool) (ops : List SideOp) : Basic :=
  ops.foldl applyOpBasic (Basic.new is_b)

/-- A sequence of operations applied to the Fast container of a side,
starting empty. -/
def applyOpsImproved (is_b : Bool) (ops : List SideOp) : ImprovedSide :=
  ops.foldl applyOpImproved (ImprovedSide.new is_b)

/-! ## Side-order helper lemmas -/

/-- The price list of a Reference container. -/
def pricesOf (s : Basic) : List Price :=
  s.levels.map Level.price

/-- Canonical insertion index of a price into a side-ordered price list: the
length of the prefix of prices that strictly precede it. -/
def canonPos (b : Bool) (p : Price) (l : List Price) : Nat :=
  (l.takeWhile fun x => decide (sideLt b x p)).length

/-! ## Claim-level definitions and concrete test inputs -/

instance (b : Bool) : IsTrans Price (sideLt b) :=
  ⟨fun x y z h1 h2 => by
    cases b
    · exact lt_trans h1 h2
    · exact lt_trans h2 h1⟩

/-- The refinement relation between the two containers: the Fast arrays hold
exactly the prices and quantities of the Reference level list, and the side
flags agree. -/
def relSides (sb : Basic) (si : ImprovedSide) : Prop :=
  si.prices = sb.levels.map Level.price ∧
    si.qtys = sb.levels.map Level.quantity ∧ si.is_b = sb.is_b

/-- The claims allow only positive quantities on update operations. -/
def opQtyPos : SideOp → Prop
  | SideOp.update _ q => 0 < q
  | SideOp.remove _ => True

instance : DecidablePred opQtyPos := fun op =>
  match op with
  | SideOp.update _ q => inferInstanceAs (Decidable (0 < q))
  | SideOp.remove _ => inferInstanceAs (Decidable True)

/-- Replacement of the unique level at the matched price with the new
quantity, used to state the replace-on-match contract. -/
def replaceAt (p : Price) (q : Qty) (l : List Level) : List Level :=
  l.map fun lv => if lv.price = p then Level.mk p q else lv

/-- A concrete full (count = 32) bid side of the Fast container. -/
def fullSide : ImprovedSide :=
  { prices := [32, 31, 30, 29, 28, 27, 26, 25, 24, 23, 22, 21, 20, 19, 18, 17, 16,
      15, 14, 13, 12, 11, 10, 9, 8, 7, 6, 5, 4, 3, 2, 1]
    qtys := [5, 5, 5, 5, 5, 5, 5, 5, 5, 5, 5, 5, 5, 5, 5, 5, 5, 5, 5, 5, 5, 5, 5,
      5, 5, 5, 5, 5, 5, 5, 5, 5]
    is_b := true }

instance : IsTotal (Price × Qty) (fun a b => b.1 ≤ a.1) :=
  ⟨fun a b => (le_total b.1 a.1).symm.symm⟩

instance : IsTrans (Price × Qty) (fun a b => b.1 ≤ a.1) :=
  ⟨fun _ _ _ h1 h2 => le_trans h2 h1⟩

instance : IsTotal (Price × Qty) (fun a b => a.1 ≤ b.1) :=
  ⟨fun a b => le_total a.1 b.1⟩

instance : IsTrans (Price × Qty) (fun a b => a.1 ≤ b.1) :=
  ⟨fun _ _ _ h1 h2 => le_trans h1 h2⟩

instance : IsTrans Level (fun x y => y.price < x.price) :=
  ⟨fun _ _ _ h1 h2 => lt_trans h2 h1⟩

instance : IsTrans Level (fun x y => x.price < y.price) :=
  ⟨fun _ _ _ h1 h2 => lt_trans h1 h2⟩

/-- Little-endian byte encoding of a u64 value (test-input construction). -/
def u64bytes (n : Nat) : List Nat :=
  [n % 256, n / 256 % 256, n / 65536 % 256, n / 16777216 % 256,
   n / 4294967296 % 256, n / 1099511627776 % 256,
   n / 281474976710656 % 256, n / 72057594037927936 % 256]

/-- A concrete snapshot record whose two non-empty bid levels appear in
ascending price order (price bits 99 then 100; for positive finite doubles
the numeric order of prices equals the order of their bit patterns, so this
models a real feed record with out-of-order bids): timestamp 0, seq_no 7,
security_id 1, group 0 = bid (99, 10), group 1 = bid (100, 20), no asks. -/
def c2bytes : List Nat :=
  u64bytes 0 ++ u64bytes 7 ++ u64bytes 1 ++
  (u64bytes 99 ++ u64bytes 10 ++ u64bytes 0 ++ u64bytes 0) ++
  (u64bytes 100 ++ u64bytes 20 ++ u64bytes 0 ++ u64bytes 0) ++
  List.replicate 96 0

/-- A 32-byte incremental record declaring one update with no update bytes:
truncated, detected at offset 0. -/
def c9short : List Nat :=
  u64bytes 0 ++ u64bytes 1 ++ u64bytes 1 ++ u64bytes 1

/-- A well-formed empty record (seq_no 0, filtered) followed by c9short:
truncated, detected at offset 32. -/
def c9long : List Nat :=
  (u64bytes 0 ++ u64bytes 0 ++ u64bytes 1 ++ u64bytes 0) ++ c9short

/-! ## Side-order and search lemmas -/

theorem sideLt_trans {b : Bool} {x y z : Price} (h1 : sideLt b x y) (h2 : sideLt b y z) :
    sideLt b x z := by
  cases b
  · exact lt_trans h1 h2
  · exact lt_trans h2 h1

theorem sideLt_irrefl (b : Bool) (x : Price) : ¬ sideLt b x x := by
  cases b <;> simp [sideLt]

theorem sideLt_asymm {b : Bool} {x y : Price} (h : sideLt b x y) : ¬ sideLt b y x := by
  cases b
  · exact lt_asymm h
  · exact lt_asymm h

theorem sideLt_tri (b : Bool) (x y : Price) : sideLt b x y ∨ x = y ∨ sideLt b y x := by
  cases b
  · rcases lt_trichotomy x y with h | h | h
    · exact Or.inl h
    · exact Or.inr (Or.inl h)
    · exact Or.inr (Or.inr h)
  · rcases lt_trichotomy y x with h | h | h
    · exact Or.inl h
    · exact Or.inr (Or.inl h.symm)
    · exact Or.inr (Or.inr h)

theorem canonPos_le_length (b : Bool) (p : Price) (l : List Price) :
    canonPos b p l ≤ l.length := by
  induction l with
  | nil => simp [canonPos]
  | cons x xs ih =>
      by_cases h : sideLt b x p
      · simp only [canonPos, List.takeWhile_cons, decide_eq_true h, if_pos rfl,
          List.length_cons]
        exact Nat.succ_le_succ ih
      · simp [canonPos, List.takeWhile_cons, h]

theorem canonPos_pred {b : Bool} {p : Price} {l : List Price} {m : Nat}
    (hm : m < canonPos b p l) {x : Price} (hx : l[m]? = some x) : sideLt b x p := by
  induction l generalizing m with
  | nil => simp [canonPos] at hm
  | cons y ys ih =>
      by_cases hy : sideLt b y p
      · cases m with
        | zero =>
            simp only [List.getElem?_cons_zero, Option.some.injEq] at hx
            exact hx ▸ hy
        | succ m' =>
            simp only [canonPos, List.takeWhile_cons, decide_eq_true hy,
              List.length_cons] at hm
            exact ih (by simpa [canonPos] using Nat.lt_of_succ_lt_succ hm)
              (by simpa using hx)
      · simp [canonPos, List.takeWhile_cons, hy] at hm

theorem canonPos_stop {b : Bool} {p : Price} {l : List Price} {x : Price}
    (hx : l[canonPos b p l]? = some x) : ¬ sideLt b x p := by
  induction l with
  | nil => simp at hx
  | cons y ys ih =>
      by_cases hy : sideLt b y p
      · simp only [canonPos, List.takeWhile_cons, decide_eq_true hy, List.length_cons] at hx
        exact ih (by simpa [canonPos] using hx)
      · simp [canonPos, List.takeWhile_cons, hy] at hx
        exact hx ▸ hy

theorem pairwise_getElem? {α : Type} {R : α → α → Prop} {l : List α}
    (h : List.Pairwise R l) {i j : Nat} (hij : i < j) {x y : α}
    (hx : l[i]? = some x) (hy : l[j]? = some y) : R x y := by
  rw [List.pairwise_iff_getElem] at h
  have hjl : j < l.length := by
    by_contra hc
    rw [List.getElem?_eq_none (by omega)] at hy
    exact Option.noConfusion hy
  have hil : i < l.length := lt_trans hij hjl
  rw [List.getElem?_eq_getElem hil, Option.some.injEq] at hx
  rw [List.getElem?_eq_getElem hjl, Option.some.injEq] at hy
  exact hx ▸ hy ▸ h i j hil hjl hij

theorem sorted_unique {b : Bool} {l : List Price} (h : List.Pairwise (sideLt b) l)
    {i j : Nat} {p : Price} (hi : l[i]? = some p) (hj : l[j]? = some p) : i = j := by
  rcases Nat.lt_trichotomy i j with hij | hij | hij
  · exact absurd (pairwise_getElem? h hij hi hj) (sideLt_irrefl b p)
  · exact hij
  · exact absurd (pairwise_getElem? h hij hj hi) (sideLt_irrefl b p)

theorem findIdx?_first {α : Type} (pred : α → Bool) :
    ∀ (l : List α) (k i : Nat) (x : α), l[k]? = some x → pred x = true →
      (∀ m < k, ∀ y, l[m]? = some y → pred y = false) →
      l.findIdx? pred i = some (i + k) := by
  intro l
  induction l with
  | nil => intro k i x hx _ _; simp at hx
  | cons z zs ih =>
      intro k i x hx hpx hbefore
      cases k with
      | zero =>
          simp only [List.getElem?_cons_zero, Option.some.injEq] at hx
          rw [List.findIdx?_cons, hx, hpx]
          simp
      | succ k' =>
          have hz : pred z = false := hbefore 0 (Nat.succ_pos k') z (by simp)
          rw [List.findIdx?_cons, hz]
          simp only [Bool.false_eq_true, if_false]
          have := ih k' (i + 1) x (by simpa using hx) hpx
            (fun m hm y hy => hbefore (m + 1) (Nat.succ_lt_succ hm) y (by simpa using hy))
          rw [this]
          congr 1
          omega

theorem ordPred_true {b : Bool} {p x : Price} (h : sideLt b p x) :
    (if b = true then decide (x < p) else decide (p < x)) = true := by
  cases b <;> simp_all [sideLt]

theorem ordPred_false {b : Bool} {p x : Price} (h : ¬ sideLt b p x) :
    (if b = true then decide (x < p) else decide (p < x)) = false := by
  cases b <;> simp_all [sideLt]

theorem mem_take_getElem? {α : Type} {l : List α} {n : Nat} {x : α}
    (hx : x ∈ l.take n) : ∃ m, m < n ∧ l[m]? = some x := by
  rw [List.mem_iff_getElem?] at hx
  obtain ⟨m, hm⟩ := hx
  rw [List.getElem?_take] at hm
  by_cases hmn : m < n
  · exact ⟨m, hmn, by simpa [hmn] using hm⟩
  · simp [hmn] at hm

theorem scalarLoop_found {b : Bool} {p : Price} :
    ∀ (l : List Price) (i k : Nat), l[k]? = some p →
      (∀ m < k, ∀ x, l[m]? = some x → sideLt b x p) →
      scalarLoop b p l i = FindRes.found (i + k) := by
  intro l
  induction l with
  | nil => intro i k hk _; simp at hk
  | cons x xs ih =>
      intro i k hk hbefore
      cases k with
      | zero =>
          simp only [List.getElem?_cons_zero, Option.some.injEq] at hk
          simp [scalarLoop, hk]
      | succ k' =>
          have hx : sideLt b x p := hbefore 0 (Nat.succ_pos k') x (by simp)
          have hne : ¬ p = x := fun hpe => absurd hx (by rw [hpe]; exact sideLt_irrefl b x)
          have hins : ¬ (if b = true then x < p else p < x) := by
            have := sideLt_asymm hx
            cases b <;> simp_all [sideLt]
          rw [scalarLoop, if_neg hne, if_neg hins]
          have := ih (i + 1) k' (by simpa using hk)
            (fun m hm y hy => hbefore (m + 1) (Nat.succ_lt_succ hm) y (by simpa using hy))
          rw [this]
          congr 1
          omega

theorem scalarLoop_absent {b : Bool} {p : Price} :
    ∀ (l : List Price) (i k : Nat), k ≤ l.length →
      (∀ m < k, ∀ x, l[m]? = some x → sideLt b x p) →
      (∀ m, k ≤ m → ∀ x, l[m]? = some x → sideLt b p x) →
      scalarLoop b p l i = FindRes.insert (i + k) := by
  intro l
  induction l with
  | nil =>
      intro i k hk _ _
      have hk0 : k = 0 := Nat.le_zero.mp hk
      subst hk0
      simp [scalarLoop]
  | cons x xs ih =>
      intro i k hk hbefore hafter
      cases k with
      | zero =>
          have hx : sideLt b p x := hafter 0 (Nat.le_refl 0) x (by simp)
          have hne : ¬ p = x := fun hpe => absurd hx (by rw [hpe]; exact sideLt_irrefl b x)
          rw [scalarLoop, if_neg hne, if_pos (by
            have := ordPred_true hx
            cases b <;> simp_all)]
          simp
      | succ k' =>
          have hx : sideLt b x p := hbefore 0 (Nat.succ_pos k') x (by simp)
          have hne : ¬ p = x := fun hpe => absurd hx (by rw [hpe]; exact sideLt_irrefl b x)
          have hins : ¬ (if b = true then x < p else p < x) := by
            have := sideLt_asymm hx
            cases b <;> simp_all [sideLt]
          rw [scalarLoop, if_neg hne, if_neg hins]
          have := ih (i + 1) k' (by simpa using hk)
            (fun m hm y hy => hbefore (m + 1) (Nat.succ_lt_succ hm) y (by simpa using hy))
            (fun m hm y hy => hafter (m + 1) (Nat.succ_le_succ hm) y (by simpa using hy))
          rw [this]
          congr 1
          omega

theorem chunkLoop_found_aux {b : Bool} {p : Price} :
    ∀ (n : Nat) (l : List Price), l.length ≤ n → ∀ (i k : Nat), l[k]? = some p →
      (∀ m < k, ∀ x, l[m]? = some x → sideLt b x p) →
      chunkLoop b p n l i = FindRes.found (i + k) := by
  intro n
  induction n with
  | zero =>
      intro l hl i k hk _
      have : l = [] := List.length_eq_zero.mp (Nat.le_zero.mp hl)
      subst this
      simp at hk
  | succ n ih =>
      intro l hl i k hk hbefore
      simp only [chunkLoop]
      by_cases h4 : 4 ≤ l.length
      · rw [if_pos h4]
        rcases Nat.lt_or_ge k 4 with hk4 | hk4
        · have hfi : (l.take 4).findIdx? (fun x => decide (x = p)) = some (0 + k) := by
            apply findIdx?_first
            · rw [List.getElem?_take, if_pos hk4]; exact hk
            · simp
            · intro m hm y hy
              rw [List.getElem?_take, if_pos (lt_trans hm hk4)] at hy
              have hslt := hbefore m hm y hy
              simp only [decide_eq_false_iff_not]
              intro he
              rw [he] at hslt
              exact sideLt_irrefl b p hslt
          simp only [hfi]
          congr 1
          omega
        · have heqnone : (l.take 4).findIdx? (fun x => decide (x = p)) = none := by
            rw [List.findIdx?_eq_none_iff]
            intro x hx
            obtain ⟨m, hm4, hmx⟩ := mem_take_getElem? hx
            have hslt := hbefore m (lt_of_lt_of_le hm4 hk4) x hmx
            simp only [decide_eq_false_iff_not]
            intro he
            rw [he] at hslt
            exact sideLt_irrefl b p hslt
          have hordnone : (l.take 4).findIdx?
              (fun x => if b = true then decide (x < p) else decide (p < x)) = none := by
            rw [List.findIdx?_eq_none_iff]
            intro x hx
            obtain ⟨m, hm4, hmx⟩ := mem_take_getElem? hx
            exact ordPred_false (sideLt_asymm (hbefore m (lt_of_lt_of_le hm4 hk4) x hmx))
          simp only [heqnone, hordnone]
          have hrec := ih (l.drop 4) (by simp; omega) (i + 4) (k - 4)
            (by rw [List.getElem?_drop]; have : 4 + (k - 4) = k := by omega
                rw [this]; exact hk)
            (by intro m hm x hx
                rw [List.getElem?_drop] at hx
                exact hbefore (4 + m) (by omega) x hx)
          rw [hrec]
          congr 1
          omega
      · rw [if_neg h4]
        exact scalarLoop_found l i k hk hbefore

theorem chunkLoop_absent_aux {b : Bool} {p : Price} :
    ∀ (n : Nat) (l : List Price), l.length ≤ n → ∀ (i k : Nat), k ≤ l.length →
      (∀ m < k, ∀ x, l[m]? = some x → sideLt b x p) →
      (∀ m, k ≤ m → ∀ x, l[m]? = some x → sideLt b p x) →
      chunkLoop b p n l i = FindRes.insert (i + k) := by
  intro n
  induction n with
  | zero =>
      intro l hl i k hk _ _
      have : l = [] := List.length_eq_zero.mp (Nat.le_zero.mp hl)
      subst this
      have hk0 : k = 0 := Nat.le_zero.mp hk
      subst hk0
      simp [chunkLoop, scalarLoop]
  | succ n ih =>
      intro l hl i k hk hbefore hafter
      have hne : ∀ (m : Nat) (x : Price), l[m]? = some x → ¬ x = p := by
        intro m x hx he
        rcases Nat.lt_or_ge m k with hm | hm
        · have := hbefore m hm x hx
          rw [he] at this
          exact sideLt_irrefl b p this
        · have := hafter m hm x hx
          rw [he] at this
          exact sideLt_irrefl b p this
      simp only [chunkLoop]
      by_cases h4 : 4 ≤ l.length
      · rw [if_pos h4]
        have heqnone : (l.take 4).findIdx? (fun x => decide (x = p)) = none := by
          rw [List.findIdx?_eq_none_iff]
          intro x hx
          obtain ⟨m, _, hmx⟩ := mem_take_getElem? hx
          simp only [decide_eq_false_iff_not]
          exact hne m x hmx
        rcases Nat.lt_or_ge k 4 with hk4 | hk4
        · have hord : (l.take 4).findIdx?
              (fun x => if b = true then decide (x < p) else decide (p < x)) = some (0 + k) := by
            apply findIdx?_first
            · rw [List.getElem?_take, if_pos hk4]
              exact List.getElem?_eq_getElem (by omega)
            · exact ordPred_true (hafter k (Nat.le_refl k) _
                (List.getElem?_eq_getElem (by omega)))
            · intro m hm y hy
              rw [List.getElem?_take, if_pos (lt_trans hm hk4)] at hy
              exact ordPred_false (sideLt_asymm (hbefore m hm y hy))
          simp only [heqnone, hord]
          congr 1
          omega
        · have hordnone : (l.take 4).findIdx?
              (fun x => if b = true then decide (x < p) else decide (p < x)) = none := by
            rw [List.findIdx?_eq_none_iff]
            intro x hx
            obtain ⟨m, hm4, hmx⟩ := mem_take_getElem? hx
            exact ordPred_false (sideLt_asymm (hbefore m (lt_of_lt_of_le hm4 hk4) x hmx))
          simp only [heqnone, hordnone]
          have hrec := ih (l.drop 4) (by simp; omega) (i + 4) (k - 4)
            (by simp; omega)
            (by intro m hm x hx
                rw [List.getElem?_drop] at hx
                exact hbefore (4 + m) (by omega) x hx)
            (by intro m hm x hx
                rw [List.getElem?_drop] at hx
                exact hafter (4 + m) (by omega) x hx)
          rw [hrec]
          congr 1
          omega
      · rw [if_neg h4]
        exact scalarLoop_absent l i k hk hbefore hafter

theorem canon_after {b : Bool} {l : List Price} {p : Price}
    (hs : List.Pairwise (sideLt b) l) (hp : p ∉ l) :
    ∀ m, canonPos b p l ≤ m → ∀ x, l[m]? = some x → sideLt b p x := by
  intro m hm x hx
  have hml : m < l.length := by
    by_contra hc
    rw [List.getElem?_eq_none (by omega)] at hx
    exact Option.noConfusion hx
  have hcl : canonPos b p l < l.length := lt_of_le_of_lt hm hml
  have hy : l[canonPos b p l]? = some l[canonPos b p l] := List.getElem?_eq_getElem hcl
  have hnotlt : ¬ sideLt b (l[canonPos b p l]) p := canonPos_stop hy
  have hnemem : l[canonPos b p l] ≠ p := by
    intro he
    exact hp (he ▸ List.getElem_mem hcl)
  have hppc : sideLt b p (l[canonPos b p l]) := by
    rcases sideLt_tri b (l[canonPos b p l]) p with h | h | h
    · exact absurd h hnotlt
    · exact absurd h hnemem
    · exact h
  rcases Nat.eq_or_lt_of_le hm with he | hlt
  · rw [← he] at hx
    rw [hy, Option.some.injEq] at hx
    exact hx ▸ hppc
  · exact sideLt_trans hppc (pairwise_getElem? hs hlt hy hx)

theorem improved_find_found {s : ImprovedSide}
    (hs : List.Pairwise (sideLt s.is_b) s.prices) {k : Nat} {p : Price}
    (hk : s.prices[k]? = some p) : s.find_position p = FindRes.found k := by
  have hkl : k < s.prices.length := by
    by_contra hc
    rw [List.getElem?_eq_none (by omega)] at hk
    exact Option.noConfusion hk
  rw [ImprovedSide.find_position, if_neg (by omega)]
  have h := chunkLoop_found_aux s.prices.length s.prices (Nat.le_refl _) 0 k hk
    (fun m hm x hx => pairwise_getElem? hs hm hx hk)
  rw [h]
  congr 1
  omega

theorem improved_find_absent {s : ImprovedSide}
    (hs : List.Pairwise (sideLt s.is_b) s.prices) {p : Price}
    (hp : p ∉ s.prices) : s.find_position p = FindRes.insert (canonPos s.is_b p s.prices) := by
  rw [ImprovedSide.find_position]
  by_cases h0 : s.prices.length = 0
  · rw [if_pos h0]
    have : s.prices = [] := List.length_eq_zero.mp h0
    rw [this]
    simp [canonPos]
  · rw [if_neg h0]
    have h := chunkLoop_absent_aux s.prices.length s.prices (Nat.le_refl _) 0
      (canonPos s.is_b p s.prices) (canonPos_le_length _ _ _)
      (fun m hm x hx => canonPos_pred hm hx)
      (canon_after hs hp)
    rw [h]
    congr 1
    omega

theorem scalarLoop_not_mem {b : Bool} {p : Price} :
    ∀ (l : List Price) (i : Nat), p ∉ l → ∃ j, scalarLoop b p l i = FindRes.insert j := by
  intro l
  induction l with
  | nil => intro i _; exact ⟨i, rfl⟩
  | cons x xs ih =>
      intro i hp
      have hne : ¬ p = x := fun he => hp (he ▸ List.mem_cons_self x xs)
      rw [scalarLoop, if_neg hne]
      by_cases hins : (if b = true then x < p else p < x)
      · rw [if_pos hins]
        exact ⟨i, rfl⟩
      · rw [if_neg hins]
        exact ih (i + 1) (fun hm => hp (List.mem_cons_of_mem x hm))

theorem chunkLoop_not_mem {b : Bool} {p : Price} :
    ∀ (n : Nat) (l : List Price), l.length ≤ n → ∀ (i : Nat), p ∉ l →
      ∃ j, chunkLoop b p n l i = FindRes.insert j := by
  intro n
  induction n with
  | zero =>
      intro l hl i _
      have : l = [] := List.length_eq_zero.mp (Nat.le_zero.mp hl)
      subst this
      exact ⟨i, by simp [chunkLoop, scalarLoop]⟩
  | succ n ih =>
      intro l hl i hp
      simp only [chunkLoop]
      by_cases h4 : 4 ≤ l.length
      · rw [if_pos h4]
        have heqnone : (l.take 4).findIdx? (fun x => decide (x = p)) = none := by
          rw [List.findIdx?_eq_none_iff]
          intro x hx
          simp only [decide_eq_false_iff_not]
          intro he
          exact hp (he ▸ List.mem_of_mem_take hx)
        rw [heqnone]
        cases hord : (l.take 4).findIdx?
            (fun x => if b = true then decide (x < p) else decide (p < x)) with
        | some j => exact ⟨i + j, rfl⟩
        | none =>
            exact ih (l.drop 4) (by simp; omega) (i + 4)
              (fun hm => hp (List.mem_of_mem_drop hm))
      · rw [if_neg h4]
        exact scalarLoop_not_mem l i hp

theorem improved_find_not_mem {s : ImprovedSide} {p : Price} (hp : p ∉ s.prices) :
    ∃ j, s.find_position p = FindRes.insert j := by
  rw [ImprovedSide.find_position]
  by_cases h0 : s.prices.length = 0
  · rw [if_pos h0]
    exact ⟨0, rfl⟩
  · rw [if_neg h0]
    exact chunkLoop_not_mem s.prices.length s.prices (Nat.le_refl _) 0 hp

theorem bsLoop_aux {g : Nat → Ordering} {len t : Nat}
    (hle : ∀ i, i ≤ t → i < len → g i ≠ Ordering.gt)
    (hgt : ∀ i, t < i → i < len → g i = Ordering.gt) :
    ∀ (fuel : Nat), ∀ size base, size ≤ fuel → 0 < size → base ≤ t →
      t < base + size → base + size ≤ len →
      bsLoop g fuel base size = t := by
  intro fuel
  induction fuel with
  | zero =>
      intro size base hsf hpos _ _ _
      exact absurd hpos (by omega)
  | succ fuel ih =>
      intro size base hsf hpos hbt htb hlen
      simp only [bsLoop]
      by_cases h1 : 1 < size
      · rw [if_pos h1]
        have hhalf : 0 < size / 2 := by omega
        have hhalf2 : size / 2 < size := by omega
        by_cases hmid : g (base + size / 2) = Ordering.gt
        · rw [if_pos hmid]
          have hmt : t < base + size / 2 := by
            by_contra hc
            push_neg at hc
            exact hle (base + size / 2) hc (by omega) hmid
          exact ih (size - size / 2) base (by omega) (by omega) hbt (by omega) (by omega)
        · rw [if_neg hmid]
          have hmt : base + size / 2 ≤ t := by
            by_contra hc
            push_neg at hc
            exact hmid (hgt (base + size / 2) hc (by omega))
          exact ih (size - size / 2) (base + size / 2) (by omega) (by omega) hmt
            (by omega) (by omega)
      · rw [if_neg h1]
        omega

theorem bsLoop_allgt {g : Nat → Ordering} {len : Nat}
    (hallgt : ∀ i, i < len → g i = Ordering.gt) :
    ∀ (fuel : Nat), ∀ size base, base + size ≤ len → bsLoop g fuel base size = base := by
  intro fuel
  induction fuel with
  | zero => intro size base _; rfl
  | succ fuel ih =>
      intro size base hlen
      simp only [bsLoop]
      by_cases h1 : 1 < size
      · rw [if_pos h1]
        rw [if_pos (hallgt (base + size / 2) (by omega))]
        exact ih (size - size / 2) base (by omega)
      · rw [if_neg h1]

theorem rustBS_found {g : Nat → Ordering} {len k : Nat} (hk : k < len)
    (hlt : ∀ i, i < k → g i = Ordering.lt) (heq : g k = Ordering.eq)
    (hgt : ∀ i, k < i → i < len → g i = Ordering.gt) :
    rustBinarySearch g len = FindRes.found k := by
  have hbl : bsLoop g len 0 len = k := by
    apply bsLoop_aux (t := k)
    · intro i hik hil
      rcases Nat.eq_or_lt_of_le hik with he | hl
      · rw [he, heq]; intro hc; exact Ordering.noConfusion hc
      · rw [hlt i hl]; intro hc; exact Ordering.noConfusion hc
    · exact hgt
    · omega
    · omega
    · omega
    · omega
    · omega
  rw [rustBinarySearch, if_neg (by omega), hbl, heq]

theorem rustBS_absent {g : Nat → Ordering} {len k : Nat} (hk : k ≤ len)
    (hlt : ∀ i, i < k → g i = Ordering.lt)
    (hgt : ∀ i, k ≤ i → i < len → g i = Ordering.gt) :
    rustBinarySearch g len = FindRes.insert k := by
  by_cases h0 : len = 0
  · rw [rustBinarySearch, if_pos h0]
    have : k = 0 := by omega
    rw [this]
  · rcases Nat.eq_zero_or_pos k with hk0 | hkpos
    · subst hk0
      have hbl : bsLoop g len 0 len = 0 := by
        apply bsLoop_allgt (fun i hi => hgt i (Nat.zero_le i) hi)
        omega
      rw [rustBinarySearch, if_neg h0, hbl, hgt 0 (Nat.le_refl 0) (by omega)]
    · have hbl : bsLoop g len 0 len = k - 1 := by
        apply bsLoop_aux (t := k - 1)
        · intro i hik hil
          rw [hlt i (by omega)]
          intro hc
          exact Ordering.noConfusion hc
        · intro i hi hil
          exact hgt i (by omega) hil
        · omega
        · omega
        · omega
        · omega
        · -- k - 1 < 0 + len: k positive and k at most len
          omega
      have hfin : k - 1 + 1 = k := by omega
      rw [rustBinarySearch, if_neg h0, hbl, hlt (k - 1) (by omega), hfin]

theorem getElem?_some_elt {α : Type} {l : List α} {k : Nat} {x : α}
    (h : l[k]? = some x) : ∃ hk : k < l.length, l[k] = x :=
  List.getElem?_eq_some_iff.mp h

theorem basic_cmp_lt {b : Bool} {p x : Price} (h : sideLt b x p) :
    (if b then compare p x else compare x p) = Ordering.lt := by
  cases b
  · exact compare_lt_iff_lt.mpr h
  · exact compare_lt_iff_lt.mpr h

theorem basic_cmp_gt {b : Bool} {p x : Price} (h : sideLt b p x) :
    (if b then compare p x else compare x p) = Ordering.gt := by
  cases b
  · exact compare_gt_iff_gt.mpr h
  · exact compare_gt_iff_gt.mpr h

theorem basic_cmp_eq {b : Bool} {p x : Price} (h : x = p) :
    (if b then compare p x else compare x p) = Ordering.eq := by
  subst h
  cases b
  · exact compare_eq_iff_eq.mpr rfl
  · exact compare_eq_iff_eq.mpr rfl

theorem pricesOf_getElem? {s : Basic} {i : Nat} (hi : i < s.levels.length) :
    (pricesOf s)[i]? = some (s.levels[i].price) := by
  rw [pricesOf, List.getElem?_map, List.getElem?_eq_getElem hi]
  rfl

theorem basic_find_found {s : Basic} (hs : List.Pairwise (sideLt s.is_b) (pricesOf s))
    {k : Nat} {p : Price} (hk : (pricesOf s)[k]? = some p) :
    s.find_position p = FindRes.found k := by
  obtain ⟨hkL, hkv⟩ := getElem?_some_elt hk
  have hkl : k < s.levels.length := by
    rw [pricesOf, List.length_map] at hkL
    exact hkL
  rw [Basic.find_position]
  apply rustBS_found (k := k) hkl
  · intro i hik
    have hil : i < s.levels.length := lt_trans hik hkl
    have hslt : sideLt s.is_b (s.levels[i].price) p :=
      pairwise_getElem? hs hik (pricesOf_getElem? hil) hk
    rw [List.getD_eq_getElem _ _ hil]
    exact basic_cmp_lt hslt
  · have hpe : s.levels[k].price = p := by
      have h1 := pricesOf_getElem? hkl
      rw [hk, Option.some.injEq] at h1
      exact h1.symm
    rw [List.getD_eq_getElem _ _ hkl]
    exact basic_cmp_eq hpe
  · intro i hki hil
    have hslt : sideLt s.is_b p (s.levels[i].price) :=
      pairwise_getElem? hs hki hk (pricesOf_getElem? hil)
    rw [List.getD_eq_getElem _ _ hil]
    exact basic_cmp_gt hslt

theorem basic_find_absent {s : Basic} (hs : List.Pairwise (sideLt s.is_b) (pricesOf s))
    {p : Price} (hp : p ∉ pricesOf s) :
    s.find_position p = FindRes.insert (canonPos s.is_b p (pricesOf s)) := by
  have hlenp : (pricesOf s).length = s.levels.length := by
    rw [pricesOf, List.length_map]
  rw [Basic.find_position]
  apply rustBS_absent (k := canonPos s.is_b p (pricesOf s))
  · rw [← hlenp]
    exact canonPos_le_length _ _ _
  · intro i hik
    have hil : i < s.levels.length := by
      have := canonPos_le_length s.is_b p (pricesOf s)
      omega
    have hslt : sideLt s.is_b (s.levels[i].price) p :=
      canonPos_pred hik (pricesOf_getElem? hil)
    rw [List.getD_eq_getElem _ _ hil]
    exact basic_cmp_lt hslt
  · intro i hik hil
    have hslt : sideLt s.is_b p (s.levels[i].price) :=
      canon_after hs hp i hik _ (pricesOf_getElem? hil)
    rw [List.getD_eq_getElem _ _ hil]
    exact basic_cmp_gt hslt

/-! ## List surgery helpers -/

theorem modify_nil' {α : Type} (f : α → α) (n : Nat) : List.modify f n ([] : List α) = [] := by
  cases n <;> rfl

theorem modify_cons_succ' {α : Type} (f : α → α) (x : α) (xs : List α) (n : Nat) :
    List.modify f (n + 1) (x :: xs) = x :: List.modify f n xs := rfl

theorem map_price_modify (q : Qty) :
    ∀ (l : List Level) (k : Nat),
      (l.modify (fun lv => { lv with quantity := q }) k).map Level.price =
        l.map Level.price := by
  intro l
  induction l with
  | nil => intro k; rw [modify_nil']
  | cons x xs ih =>
      intro k
      cases k with
      | zero => rfl
      | succ k' =>
          rw [modify_cons_succ', List.map_cons, List.map_cons, ih k']

theorem map_quantity_modify (q : Qty) :
    ∀ (l : List Level) (k : Nat),
      (l.modify (fun lv => { lv with quantity := q }) k).map Level.quantity =
        (l.map Level.quantity).set k q := by
  intro l
  induction l with
  | nil => intro k; rw [modify_nil']; rfl
  | cons x xs ih =>
      intro k
      cases k with
      | zero => rfl
      | succ k' =>
          rw [modify_cons_succ', List.map_cons, List.map_cons, ih k', List.set_cons_succ]

theorem map_insertIdx' {α β : Type} (f : α → β) (a : α) :
    ∀ (l : List α) (k : Nat),
      (l.insertIdx k a).map f = (l.map f).insertIdx k (f a) := by
  intro l
  induction l with
  | nil =>
      intro k
      cases k with
      | zero => rfl
      | succ k' => rfl
  | cons x xs ih =>
      intro k
      cases k with
      | zero => rfl
      | succ k' =>
          rw [List.insertIdx_succ_cons, List.map_cons, List.map_cons,
            List.insertIdx_succ_cons, ih k']

theorem map_eraseIdx' {α β : Type} (f : α → β) :
    ∀ (l : List α) (k : Nat), (l.eraseIdx k).map f = (l.map f).eraseIdx k := by
  intro l
  induction l with
  | nil => intro k; rfl
  | cons x xs ih =>
      intro k
      cases k with
      | zero => rfl
      | succ k' =>
          rw [List.eraseIdx_cons_succ, List.map_cons, List.map_cons,
            List.eraseIdx_cons_succ, ih k']

theorem zipWith_price_quantity :
    ∀ (l : List Level),
      List.zipWith (fun p q => { price := p, quantity := q : Level })
        (l.map Level.price) (l.map Level.quantity) = l := by
  intro l
  induction l with
  | nil => rfl
  | cons x xs ih =>
      rw [List.map_cons, List.map_cons, List.zipWith_cons_cons, ih]

theorem pairwise_insertIdx_canon {b : Bool} {p : Price} :
    ∀ {l : List Price}, List.Pairwise (sideLt b) l → p ∉ l →
      List.Pairwise (sideLt b) (l.insertIdx (canonPos b p l) p) := by
  intro l
  induction l with
  | nil => intro _ _; simp [canonPos]
  | cons x xs ih =>
      intro hs hp
      have hpx : p ≠ x := fun he => hp (he ▸ List.mem_cons_self x xs)
      have hpxs : p ∉ xs := fun hm => hp (List.mem_cons_of_mem x hm)
      by_cases hx : sideLt b x p
      · rw [show canonPos b p (x :: xs) = canonPos b p xs + 1 by
          simp [canonPos, List.takeWhile_cons, hx]]
        rw [List.insertIdx_succ_cons]
        rw [List.pairwise_cons] at hs
        rw [List.pairwise_cons]
        constructor
        · intro y hy
          rcases (List.mem_insertIdx (canonPos_le_length b p xs)).mp hy with he | hm
          · exact he ▸ hx
          · exact hs.1 y hm
        · exact ih hs.2 hpxs
      · rw [show canonPos b p (x :: xs) = 0 by simp [canonPos, List.takeWhile_cons, hx]]
        rw [List.insertIdx_zero]
        rw [List.pairwise_cons]
        constructor
        · intro y hy
          have hpy : sideLt b p x := by
            rcases sideLt_tri b x p with h | h | h
            · exact absurd h hx
            · exact absurd h.symm hpx
            · exact h
          rcases List.mem_cons.mp hy with he | hm
          · exact he ▸ hpy
          · rw [List.pairwise_cons] at hs
            exact sideLt_trans hpy (hs.1 y hm)
        · exact hs

/-! ## Mutation characterisation on sorted states -/

theorem basic_update_mem {s : Basic} (hs : List.Pairwise (sideLt s.is_b) (pricesOf s))
    {k : Nat} {p : Price} (hk : (pricesOf s)[k]? = some p) (q : Qty) :
    s.update_l p q =
      { s with levels := s.levels.modify (fun lv => { lv with quantity := q }) k } := by
  rw [Basic.update_l, basic_find_found hs hk]

theorem basic_update_absent {s : Basic} (hs : List.Pairwise (sideLt s.is_b) (pricesOf s))
    {p : Price} (hp : p ∉ pricesOf s) (q : Qty) :
    s.update_l p q =
      { s with
        levels := s.levels.insertIdx (canonPos s.is_b p (pricesOf s)) (Level.mk p q) } := by
  rw [Basic.update_l, basic_find_absent hs hp]

theorem basic_remove_mem {s : Basic} (hs : List.Pairwise (sideLt s.is_b) (pricesOf s))
    {k : Nat} {p : Price} (hk : (pricesOf s)[k]? = some p) :
    s.remove_l p = { s with levels := s.levels.eraseIdx k } := by
  rw [Basic.remove_l, basic_find_found hs hk]

theorem basic_remove_absent {s : Basic} (hs : List.Pairwise (sideLt s.is_b) (pricesOf s))
    {p : Price} (hp : p ∉ pricesOf s) : s.remove_l p = s := by
  rw [Basic.remove_l, basic_find_absent hs hp]

theorem improved_update_mem {s : ImprovedSide}
    (hs : List.Pairwise (sideLt s.is_b) s.prices) {k : Nat} {p : Price}
    (hk : s.prices[k]? = some p) (q : Qty) :
    s.update_l p q = { s with qtys := s.qtys.set k q } := by
  rw [ImprovedSide.update_l]
  by_cases hh : s.prices.head? = some p
  · rw [if_pos hh]
    rw [List.head?_eq_getElem?] at hh
    have hk0 : 0 = k := sorted_unique hs hh hk
    rw [← hk0]
  · rw [if_neg hh, improved_find_found hs hk]

theorem improved_update_absent {s : ImprovedSide}
    (hs : List.Pairwise (sideLt s.is_b) s.prices) {p : Price}
    (hp : p ∉ s.prices) (hlen : s.prices.length < MAX_LEVELS) (q : Qty) :
    s.update_l p q =
      { s with
        prices := s.prices.insertIdx (canonPos s.is_b p s.prices) p
        qtys := s.qtys.insertIdx (canonPos s.is_b p s.prices) q } := by
  rw [ImprovedSide.update_l]
  have hh : ¬ s.prices.head? = some p := fun hc => hp (List.mem_of_mem_head? (by rw [hc]; rfl))
  simp only [if_neg hh, improved_find_absent hs hp, if_pos hlen]

theorem improved_update_full {s : ImprovedSide} {p : Price}
    (hp : p ∉ s.prices) (hlen : ¬ s.prices.length < MAX_LEVELS) (q : Qty) :
    s.update_l p q = s := by
  rw [ImprovedSide.update_l]
  have hh : ¬ s.prices.head? = some p := fun hc => hp (List.mem_of_mem_head? (by rw [hc]; rfl))
  obtain ⟨j, hj⟩ := improved_find_not_mem hp
  simp only [if_neg hh, hj, if_neg hlen]

theorem improved_remove_mem {s : ImprovedSide}
    (hs : List.Pairwise (sideLt s.is_b) s.prices) {k : Nat} {p : Price}
    (hk : s.prices[k]? = some p) :
    s.remove_l p = { s with prices := s.prices.eraseIdx k, qtys := s.qtys.eraseIdx k } := by
  rw [ImprovedSide.remove_l]
  by_cases hh : s.prices.head? = some p
  · rw [if_pos hh]
    rw [List.head?_eq_getElem?] at hh
    have hk0 : 0 = k := sorted_unique hs hh hk
    rw [← hk0, List.eraseIdx_zero, List.eraseIdx_zero]
  · rw [if_neg hh, improved_find_found hs hk]

theorem improved_remove_absent {s : ImprovedSide} {p : Price}
    (hp : p ∉ s.prices) : s.remove_l p = s := by
  rw [ImprovedSide.remove_l]
  have hh : ¬ s.prices.head? = some p := fun hc => hp (List.mem_of_mem_head? (by rw [hc]; rfl))
  obtain ⟨j, hj⟩ := improved_find_not_mem hp
  simp only [if_neg hh, hj]

/-! ## Sortedness preservation and the refinement relation -/

theorem sideLt_ne {b : Bool} {x y : Price} (h : sideLt b x y) : x ≠ y :=
  fun he => sideLt_irrefl b y (he ▸ h)

theorem pricesOf_eq (s : Basic) : pricesOf s = s.levels.map Level.price := rfl

theorem basic_update_is_b (s : Basic) (p : Price) (q : Qty) :
    (s.update_l p q).is_b = s.is_b := by
  rw [Basic.update_l]
  cases s.find_position p <;> rfl

theorem basic_remove_is_b (s : Basic) (p : Price) :
    (s.remove_l p).is_b = s.is_b := by
  rw [Basic.remove_l]
  cases s.find_position p <;> rfl

theorem improved_update_is_b (s : ImprovedSide) (p : Price) (q : Qty) :
    (s.update_l p q).is_b = s.is_b := by
  rw [ImprovedSide.update_l]
  by_cases hh : s.prices.head? = some p
  · rw [if_pos hh]
  · rw [if_neg hh]
    cases s.find_position p with
    | found pos => rfl
    | insert pos =>
        by_cases hl : s.prices.length < MAX_LEVELS
        · simp only [if_pos hl]
        · simp only [if_neg hl]

theorem improved_remove_is_b (s : ImprovedSide) (p : Price) :
    (s.remove_l p).is_b = s.is_b := by
  rw [ImprovedSide.remove_l]
  by_cases hh : s.prices.head? = some p
  · rw [if_pos hh]
  · rw [if_neg hh]
    cases s.find_position p <;> rfl

theorem pairwise_basic_update {s : Basic} (hs : List.Pairwise (sideLt s.is_b) (pricesOf s))
    (p : Price) (q : Qty) :
    List.Pairwise (sideLt s.is_b) (pricesOf (s.update_l p q)) := by
  by_cases hmem : p ∈ pricesOf s
  · obtain ⟨k, hk⟩ := List.mem_iff_getElem?.mp hmem
    rw [basic_update_mem hs hk q, pricesOf_eq]
    simp only
    rw [map_price_modify]
    exact hs
  · rw [basic_update_absent hs hmem q, pricesOf_eq]
    simp only
    rw [map_insertIdx']
    exact pairwise_insertIdx_canon hs hmem

theorem pairwise_basic_remove {s : Basic} (hs : List.Pairwise (sideLt s.is_b) (pricesOf s))
    (p : Price) :
    List.Pairwise (sideLt s.is_b) (pricesOf (s.remove_l p)) := by
  by_cases hmem : p ∈ pricesOf s
  · obtain ⟨k, hk⟩ := List.mem_iff_getElem?.mp hmem
    rw [basic_remove_mem hs hk, pricesOf_eq]
    simp only
    rw [map_eraseIdx']
    exact List.Pairwise.sublist (List.eraseIdx_sublist _ k) hs
  · rw [basic_remove_absent hs hmem]
    exact hs

theorem pairwise_improved_update {s : ImprovedSide}
    (hs : List.Pairwise (sideLt s.is_b) s.prices) (p : Price) (q : Qty) :
    List.Pairwise (sideLt s.is_b) ((s.update_l p q).prices) := by
  by_cases hmem : p ∈ s.prices
  · obtain ⟨k, hk⟩ := List.mem_iff_getElem?.mp hmem
    rw [improved_update_mem hs hk q]
    exact hs
  · by_cases hlen : s.prices.length < MAX_LEVELS
    · rw [improved_update_absent hs hmem hlen q]
      exact pairwise_insertIdx_canon hs hmem
    · rw [improved_update_full hmem hlen q]
      exact hs

theorem pairwise_improved_remove {s : ImprovedSide}
    (hs : List.Pairwise (sideLt s.is_b) s.prices) (p : Price) :
    List.Pairwise (sideLt s.is_b) ((s.remove_l p).prices) := by
  by_cases hmem : p ∈ s.prices
  · obtain ⟨k, hk⟩ := List.mem_iff_getElem?.mp hmem
    rw [improved_remove_mem hs hk]
    exact List.Pairwise.sublist (List.eraseIdx_sublist _ k) hs
  · rw [improved_remove_absent hmem]
    exact hs

theorem rel_update {sb : Basic} {si : ImprovedSide} (h : relSides sb si)
    (hs : List.Pairwise (sideLt sb.is_b) (pricesOf sb)) (p : Price) (q : Qty)
    (hcap : p ∉ pricesOf sb → sb.levels.length < MAX_LEVELS) :
    relSides (sb.update_l p q) (si.update_l p q) := by
  obtain ⟨hP, hQ, hB⟩ := h
  have hsi : List.Pairwise (sideLt si.is_b) si.prices := by
    rw [hB, hP]
    exact hs
  by_cases hmem : p ∈ pricesOf sb
  · obtain ⟨k, hk⟩ := List.mem_iff_getElem?.mp hmem
    have hki : si.prices[k]? = some p := by rw [hP]; exact hk
    rw [basic_update_mem hs hk q, improved_update_mem hsi hki q]
    refine ⟨?_, ?_, hB⟩
    · simp only
      rw [map_price_modify]
      exact hP
    · simp only
      rw [map_quantity_modify, hQ]
  · have hmemI : p ∉ si.prices := by rw [hP]; exact hmem
    have hlen : sb.levels.length < MAX_LEVELS := hcap hmem
    have hlenI : si.prices.length < MAX_LEVELS := by
      rw [hP, List.length_map]
      exact hlen
    have hcanon : canonPos si.is_b p si.prices = canonPos sb.is_b p (pricesOf sb) := by
      rw [hB, hP, pricesOf_eq]
    rw [basic_update_absent hs hmem q, improved_update_absent hsi hmemI hlenI q]
    refine ⟨?_, ?_, hB⟩
    · simp only
      rw [map_insertIdx', hcanon, hP]
    · simp only
      rw [map_insertIdx', hcanon, hQ]

theorem rel_remove {sb : Basic} {si : ImprovedSide} (h : relSides sb si)
    (hs : List.Pairwise (sideLt sb.is_b) (pricesOf sb)) (p : Price) :
    relSides (sb.remove_l p) (si.remove_l p) := by
  obtain ⟨hP, hQ, hB⟩ := h
  have hsi : List.Pairwise (sideLt si.is_b) si.prices := by
    rw [hB, hP]
    exact hs
  by_cases hmem : p ∈ pricesOf sb
  · obtain ⟨k, hk⟩ := List.mem_iff_getElem?.mp hmem
    have hki : si.prices[k]? = some p := by rw [hP]; exact hk
    rw [basic_remove_mem hs hk, improved_remove_mem hsi hki]
    refine ⟨?_, ?_, hB⟩
    · simp only
      rw [map_eraseIdx', hP]
    · simp only
      rw [map_eraseIdx', hQ]
  · have hmemI : p ∉ si.prices := by rw [hP]; exact hmem
    rw [basic_remove_absent hs hmem, improved_remove_absent hmemI]
    exact ⟨hP, hQ, hB⟩

theorem refine_aux :
    ∀ (ops : List SideOp) (sb : Basic) (si : ImprovedSide),
      relSides sb si → List.Pairwise (sideLt sb.is_b) (pricesOf sb) →
      (∀ n, n ≤ ops.length →
        (List.foldl applyOpBasic sb (ops.take n)).levels.length ≤ MAX_LEVELS) →
      relSides (List.foldl applyOpBasic sb ops) (List.foldl applyOpImproved si ops) ∧
        List.Pairwise (sideLt (List.foldl applyOpBasic sb ops).is_b)
          (pricesOf (List.foldl applyOpBasic sb ops)) := by
  intro ops
  induction ops with
  | nil =>
      intro sb si h hs _
      exact ⟨h, hs⟩
  | cons op rest ih =>
      intro sb si h hs hcap
      rw [List.foldl_cons, List.foldl_cons]
      have hcap' : ∀ n, n ≤ rest.length →
          (List.foldl applyOpBasic (applyOpBasic sb op) (rest.take n)).levels.length ≤
            MAX_LEVELS := by
        intro n hn
        have := hcap (n + 1) (by simp; omega)
        rw [List.take_succ_cons, List.foldl_cons] at this
        exact this
      cases op with
      | update p q =>
          have hcap1 : p ∉ pricesOf sb → sb.levels.length < MAX_LEVELS := by
            intro hmem
            have h1 := hcap 1 (by simp)
            rw [List.take_succ_cons, List.take_zero, List.foldl_cons, List.foldl_nil] at h1
            have hupd : applyOpBasic sb (SideOp.update p q) = sb.update_l p q := rfl
            rw [hupd, basic_update_absent hs hmem q] at h1
            simp only at h1
            rw [List.length_insertIdx _ _ (by
              have := canonPos_le_length sb.is_b p (pricesOf sb)
              rw [pricesOf_eq, List.length_map] at this
              exact this)] at h1
            omega
          have hrel' : relSides (applyOpBasic sb (SideOp.update p q))
              (applyOpImproved si (SideOp.update p q)) :=
            rel_update h hs p q hcap1
          have hs' : List.Pairwise (sideLt (applyOpBasic sb (SideOp.update p q)).is_b)
              (pricesOf (applyOpBasic sb (SideOp.update p q))) := by
            have hupd : applyOpBasic sb (SideOp.update p q) = sb.update_l p q := rfl
            rw [hupd, basic_update_is_b]
            exact pairwise_basic_update hs p q
          exact ih _ _ hrel' hs' hcap'
      | remove p =>
          have hrel' : relSides (applyOpBasic sb (SideOp.remove p))
              (applyOpImproved si (SideOp.remove p)) :=
            rel_remove h hs p
          have hs' : List.Pairwise (sideLt (applyOpBasic sb (SideOp.remove p)).is_b)
              (pricesOf (applyOpBasic sb (SideOp.remove p))) := by
            have hupd : applyOpBasic sb (SideOp.remove p) = sb.remove_l p := rfl
            rw [hupd, basic_remove_is_b]
            exact pairwise_basic_remove hs p
          exact ih _ _ hrel' hs' hcap'

/-! ## Claim-level helper predicates and concrete states -/

theorem map_if_id {p : Price} {q : Qty} :
    ∀ {l : List Level}, (∀ lv ∈ l, lv.price ≠ p) → replaceAt p q l = l := by
  intro l
  induction l with
  | nil => intro _; rfl
  | cons x xs ih =>
      intro h
      show (if x.price = p then Level.mk p q else x) :: replaceAt p q xs = x :: xs
      rw [if_neg (h x (List.mem_cons_self x xs)),
        ih fun lv hm => h lv (List.mem_cons_of_mem x hm)]

theorem modify_eq_replaceAt (q : Qty) :
    ∀ (l : List Level) (k : Nat) {p : Price}, (l.map Level.price)[k]? = some p →
      (∀ (j : Nat) (x : Level), l[j]? = some x → x.price = p → j = k) →
      l.modify (fun lv => { lv with quantity := q }) k = replaceAt p q l := by
  intro l
  induction l with
  | nil => intro k p hk _; simp at hk
  | cons x xs ih =>
      intro k p hk huniq
      cases k with
      | zero =>
          simp only [List.map_cons, List.getElem?_cons_zero, Option.some.injEq] at hk
          have hxs : ∀ lv ∈ xs, lv.price ≠ p := by
            intro lv hm he
            obtain ⟨j, hj⟩ := List.mem_iff_getElem?.mp hm
            have := huniq (j + 1) lv (by simpa using hj) he
            omega
          show ({ x with quantity := q } : Level) ::
              xs = (if x.price = p then Level.mk p q else x) :: replaceAt p q xs
          rw [if_pos hk, map_if_id hxs]
          have : ({ x with quantity := q } : Level) = Level.mk p q := by
            rw [← hk]
          rw [this]
      | succ k' =>
          have hx : x.price ≠ p := by
            intro he
            have := huniq 0 x (by simp) he
            omega
          rw [modify_cons_succ']
          show x :: List.modify (fun lv => { lv with quantity := q }) k' xs =
            (if x.price = p then Level.mk p q else x) :: replaceAt p q xs
          rw [if_neg hx]
          have := ih k' (by simpa using hk)
            (fun j y hy he => by
              have := huniq (j + 1) y (by simpa using hy) he
              omega)
          rw [this]

theorem zip_map_if_id {p : Price} {q : Qty} :
    ∀ (ps : List Price) (qs : List Qty), (∀ x ∈ ps, x ≠ p) →
      replaceAt p q (List.zipWith (fun a b => Level.mk a b) ps qs) =
        List.zipWith (fun a b => Level.mk a b) ps qs := by
  intro ps
  induction ps with
  | nil => intro qs _; rfl
  | cons x xs ih =>
      intro qs h
      cases qs with
      | nil => rfl
      | cons y ys =>
          rw [List.zipWith_cons_cons]
          show (if (Level.mk x y).price = p then Level.mk p q else Level.mk x y) ::
              replaceAt p q (List.zipWith (fun a b => Level.mk a b) xs ys) = _
          rw [if_neg (h x (List.mem_cons_self x xs)),
            ih ys fun z hm => h z (List.mem_cons_of_mem x hm)]

theorem zipWith_set_eq_replaceAt {p : Price} (q : Qty) :
    ∀ (ps : List Price) (qs : List Qty) (k : Nat), ps[k]? = some p →
      (∀ (j : Nat) (x : Price), ps[j]? = some x → x = p → j = k) →
      List.zipWith (fun a b => Level.mk a b) ps (qs.set k q) =
        replaceAt p q (List.zipWith (fun a b => Level.mk a b) ps qs) := by
  intro ps
  induction ps with
  | nil => intro qs k hk _; simp at hk
  | cons x xs ih =>
      intro qs k hk huniq
      cases qs with
      | nil => simp [replaceAt]
      | cons y ys =>
          cases k with
          | zero =>
              simp only [List.getElem?_cons_zero, Option.some.injEq] at hk
              have hxs : ∀ z ∈ xs, z ≠ p := by
                intro z hm he
                obtain ⟨j, hj⟩ := List.mem_iff_getElem?.mp hm
                have := huniq (j + 1) z (by simpa using hj) he
                omega
              rw [List.set_cons_zero, List.zipWith_cons_cons, List.zipWith_cons_cons]
              show Level.mk x q :: List.zipWith (fun a b => Level.mk a b) xs ys =
                (if (Level.mk x y).price = p then Level.mk p q else Level.mk x y) ::
                  replaceAt p q (List.zipWith (fun a b => Level.mk a b) xs ys)
              rw [if_pos hk, hk, zip_map_if_id xs ys hxs]
          | succ k' =>
              have hx : x ≠ p := by
                intro he
                have := huniq 0 x (by simp) he
                omega
              rw [List.set_cons_succ, List.zipWith_cons_cons, List.zipWith_cons_cons]
              show Level.mk x y :: List.zipWith (fun a b => Level.mk a b) xs (ys.set k' q) =
                (if (Level.mk x y).price = p then Level.mk p q else Level.mk x y) ::
                  replaceAt p q (List.zipWith (fun a b => Level.mk a b) xs ys)
              rw [if_neg hx]
              have := ih ys k' (by simpa using hk)
                (fun j z hz he => by
                  have := huniq (j + 1) z (by simpa using hz) he
                  omega)
              rw [this]

/-! ## Container-level claims -/

/-- C1: for every sequence of update_level/remove_level operations (positive
quantities on updates) in which the number of live levels on the side never
exceeds 32, the Reference container (Basic) and the Fast container
(ImprovedSide) built over the same side from empty give identical best-first
level sequences from snapshot_levels (get_l). -/
theorem C1_reference_fast_equivalence (is_b : Bool) (ops : List SideOp)
    (hq : ∀ op ∈ ops, opQtyPos op)
    (hcap : ∀ n, n ≤ ops.length →
      (applyOpsBasic is_b (ops.take n)).levels.length ≤ MAX_LEVELS) :
    (applyOpsBasic is_b ops).get_l = (applyOpsImproved is_b ops).get_l := by
  have h := refine_aux ops (Basic.new is_b) (ImprovedSide.new is_b)
    ⟨rfl, rfl, rfl⟩ List.Pairwise.nil hcap
  obtain ⟨⟨hP, hQ, _⟩, _⟩ := h
  show (List.foldl applyOpBasic (Basic.new is_b) ops).levels =
    ImprovedSide.get_l (List.foldl applyOpImproved (ImprovedSide.new is_b) ops)
  rw [ImprovedSide.get_l, hP, hQ, zipWith_price_quantity]

/-- Witness for C1 at a concrete operation sequence. -/
theorem C1_reference_fast_equivalence_witness :
    (∀ op ∈ [SideOp.update 1 10, SideOp.update 2 20, SideOp.remove 1,
        SideOp.update 2 5], opQtyPos op) ∧
    (∀ n, n ≤ ([SideOp.update 1 10, SideOp.update 2 20, SideOp.remove 1,
        SideOp.update 2 5] : List SideOp).length →
      (applyOpsBasic true (([SideOp.update 1 10, SideOp.update 2 20, SideOp.remove 1,
        SideOp.update 2 5] : List SideOp).take n)).levels.length ≤ MAX_LEVELS) ∧
    (applyOpsBasic true [SideOp.update 1 10, SideOp.update 2 20, SideOp.remove 1,
        SideOp.update 2 5]).get_l =
      (applyOpsImproved true [SideOp.update 1 10, SideOp.update 2 20, SideOp.remove 1,
        SideOp.update 2 5]).get_l :=
  ⟨by decide, by decide,
    C1_reference_fast_equivalence true
      [SideOp.update 1 10, SideOp.update 2 20, SideOp.remove 1, SideOp.update 2 5]
      (by decide) (by decide)⟩

/-- C5: after an update_level with positive quantity or a remove_level on
either container variant (starting from a state whose prices satisfy the
side ordering), the stored prices are strictly ordered at all adjacent
indices in the side's direction -- sideLt is by definition "greater than the
successor" for a bid side and "less than the successor" for an ask side --
and in particular contain no duplicate price. -/
theorem C5_ordering_invariant (sB : Basic) (sI : ImprovedSide) (p : Price) (q : Qty)
    (hq : 0 < q)
    (hB : List.Chain' (sideLt sB.is_b) (pricesOf sB))
    (hI : List.Chain' (sideLt sI.is_b) sI.prices) :
    (List.Chain' (sideLt sB.is_b) (pricesOf (sB.update_l p q)) ∧
      List.Pairwise (fun x y => x ≠ y) (pricesOf (sB.update_l p q))) ∧
    (List.Chain' (sideLt sB.is_b) (pricesOf (sB.remove_l p)) ∧
      List.Pairwise (fun x y => x ≠ y) (pricesOf (sB.remove_l p))) ∧
    (List.Chain' (sideLt sI.is_b) ((sI.update_l p q).prices) ∧
      List.Pairwise (fun x y => x ≠ y) ((sI.update_l p q).prices)) ∧
    (List.Chain' (sideLt sI.is_b) ((sI.remove_l p).prices) ∧
      List.Pairwise (fun x y => x ≠ y) ((sI.remove_l p).prices)) := by
  rw [List.chain'_iff_pairwise] at hB hI
  have h1 := pairwise_basic_update hB p q
  have h2 := pairwise_basic_remove hB p
  have h3 := pairwise_improved_update hI p q
  have h4 := pairwise_improved_remove hI p
  exact ⟨⟨List.chain'_iff_pairwise.mpr h1, h1.imp sideLt_ne⟩,
    ⟨List.chain'_iff_pairwise.mpr h2, h2.imp sideLt_ne⟩,
    ⟨List.chain'_iff_pairwise.mpr h3, h3.imp sideLt_ne⟩,
    ⟨List.chain'_iff_pairwise.mpr h4, h4.imp sideLt_ne⟩⟩

/-- Witness for C5 on concrete sorted sides. -/
theorem C5_ordering_invariant_witness :
    (0 < 4 ∧
      List.Chain' (sideLt true) (pricesOf (Basic.mk [Level.mk 3 5, Level.mk 2 7] true)) ∧
      List.Chain' (sideLt false) (ImprovedSide.mk [1, 4] [6, 8] false).prices) ∧
    (List.Chain' (sideLt true)
        (pricesOf ((Basic.mk [Level.mk 3 5, Level.mk 2 7] true).update_l (5/2) 4)) ∧
      List.Pairwise (fun x y => x ≠ y)
        (pricesOf ((Basic.mk [Level.mk 3 5, Level.mk 2 7] true).update_l (5/2) 4))) := by
  have h := C5_ordering_invariant (Basic.mk [Level.mk 3 5, Level.mk 2 7] true)
    (ImprovedSide.mk [1, 4] [6, 8] false) (5/2) 4 (by decide)
    (by rw [List.chain'_iff_pairwise]; decide)
    (by rw [List.chain'_iff_pairwise]; decide)
  exact ⟨⟨by decide, by rw [List.chain'_iff_pairwise]; decide,
    by rw [List.chain'_iff_pairwise]; decide⟩, h.1⟩

/-- C6 counterexample: on a full Fast side (count = 32), update_level with a
positive quantity at a price already stored is not dropped -- it changes the
container (the stored quantity is replaced), contradicting the claim that
every update_level on a full side leaves the container unchanged. -/
theorem C6_counterexample :
    fullSide.prices.length = MAX_LEVELS ∧ 0 < 7 ∧
      fullSide.update_l 32 7 ≠ fullSide := by
  refine ⟨by decide, by decide, ?_⟩
  decide

/-- C6 amended: on a full Fast side (count = 32), update_level with a
positive quantity at a price NOT currently stored is silently dropped: it
returns without error and the container is unchanged. -/
theorem C6_full_side_insert_dropped (s : ImprovedSide) (p : Price) (q : Qty)
    (hq : 0 < q) (hfull : s.prices.length = MAX_LEVELS) (hp : p ∉ s.prices) :
    s.update_l p q = s :=
  improved_update_full hp (by omega) q

/-- Witness for the amended C6 on the concrete full side. -/
theorem C6_full_side_insert_dropped_witness :
    (0 < 7 ∧ fullSide.prices.length = MAX_LEVELS ∧ (33 : Price) ∉ fullSide.prices) ∧
      fullSide.update_l 33 7 = fullSide :=
  ⟨⟨by decide, by decide, by decide⟩,
    C6_full_side_insert_dropped fullSide 33 7 (by decide) (by decide) (by decide)⟩

/-- C7: on either container variant in a side-ordered state currently
holding a level at price p, update_level(p, q) with positive q leaves the
number of stored levels unchanged and replaces exactly the level at p with
(p, q), leaving every other level unchanged (the snapshot of the container
becomes the pointwise replacement at p). -/
theorem C7_replace_on_match (sB : Basic) (sI : ImprovedSide) (p : Price) (q : Qty)
    (hq : 0 < q)
    (hsB : List.Pairwise (sideLt sB.is_b) (pricesOf sB))
    (hsI : List.Pairwise (sideLt sI.is_b) sI.prices)
    (hmemB : p ∈ pricesOf sB) (hmemI : p ∈ sI.prices) :
    ((sB.update_l p q).get_l.length = sB.get_l.length ∧
      (sB.update_l p q).get_l = replaceAt p q sB.get_l) ∧
    ((sI.update_l p q).get_l.length = sI.get_l.length ∧
      (sI.update_l p q).get_l = replaceAt p q sI.get_l) := by
  obtain ⟨k, hk⟩ := List.mem_iff_getElem?.mp hmemB
  obtain ⟨k', hk'⟩ := List.mem_iff_getElem?.mp hmemI
  have hBmod := basic_update_mem hsB hk q
  have hImod := improved_update_mem hsI hk' q
  have huniqB : ∀ (j : Nat) (x : Level), sB.levels[j]? = some x → x.price = p → j = k := by
    intro j x hj he
    have hjl : j < sB.levels.length := by
      by_contra hc
      rw [List.getElem?_eq_none (by omega)] at hj
      exact Option.noConfusion hj
    have hpj : (pricesOf sB)[j]? = some p := by
      have := pricesOf_getElem? hjl
      rw [List.getElem?_eq_getElem hjl, Option.some.injEq] at hj
      rw [this, hj, he]
    exact sorted_unique hsB hpj hk
  have huniqI : ∀ (j : Nat) (x : Price), sI.prices[j]? = some x → x = p → j = k' := by
    intro j x hj he
    exact sorted_unique hsI (he ▸ hj) hk'
  constructor
  · constructor
    · rw [hBmod]
      show (sB.levels.modify (fun lv => { lv with quantity := q }) k).length =
        sB.levels.length
      have h1 := congrArg List.length (map_price_modify q sB.levels k)
      rw [List.length_map, List.length_map] at h1
      exact h1
    · rw [hBmod]
      show sB.levels.modify (fun lv => { lv with quantity := q }) k =
        replaceAt p q sB.levels
      exact modify_eq_replaceAt q sB.levels k hk huniqB
  · constructor
    · rw [hImod]
      show (List.zipWith _ sI.prices (sI.qtys.set k' q)).length =
        (List.zipWith _ sI.prices sI.qtys).length
      rw [List.length_zipWith, List.length_zipWith, List.length_set]
    · rw [hImod]
      show List.zipWith (fun a b => Level.mk a b) sI.prices (sI.qtys.set k' q) =
        replaceAt p q (List.zipWith (fun a b => Level.mk a b) sI.prices sI.qtys)
      exact zipWith_set_eq_replaceAt q sI.prices sI.qtys k' hk' huniqI

/-- Witness for C7 on concrete sorted sides holding the price. -/
theorem C7_replace_on_match_witness :
    (0 < 9 ∧
      List.Pairwise (sideLt true) (pricesOf (Basic.mk [Level.mk 3 5, Level.mk 2 7] true)) ∧
      List.Pairwise (sideLt false) (ImprovedSide.mk [2, 4] [6, 8] false).prices ∧
      (2 : Price) ∈ pricesOf (Basic.mk [Level.mk 3 5, Level.mk 2 7] true) ∧
      (2 : Price) ∈ (ImprovedSide.mk [2, 4] [6, 8] false).prices) ∧
    ((Basic.mk [Level.mk 3 5, Level.mk 2 7] true).update_l 2 9).get_l =
      replaceAt 2 9 (Basic.mk [Level.mk 3 5, Level.mk 2 7] true).get_l :=
  ⟨⟨by decide, by decide, by decide, by decide, by decide⟩,
    (C7_replace_on_match (Basic.mk [Level.mk 3 5, Level.mk 2 7] true)
      (ImprovedSide.mk [2, 4] [6, 8] false) 2 9 (by decide) (by decide) (by decide)
      (by decide) (by decide)).1.2⟩

/-! ## Driver-level claims: snapshot canonicalisation (C2) -/

theorem insertionSort_strict_desc {l : List (Price × Qty)}
    (hd : List.Pairwise (fun x y => x ≠ y) (l.map Prod.fst)) :
    List.Pairwise (fun a b : Price × Qty => b.1 < a.1)
      (l.insertionSort fun a b => b.1 ≤ a.1) := by
  have hsorted : List.Pairwise (fun a b : Price × Qty => b.1 ≤ a.1)
      (l.insertionSort fun a b => b.1 ≤ a.1) :=
    List.sorted_insertionSort (fun a b : Price × Qty => b.1 ≤ a.1) l
  have hne : List.Pairwise (fun a b : Price × Qty => a.1 ≠ b.1)
      (l.insertionSort fun a b => b.1 ≤ a.1) := by
    have h1 : List.Pairwise (fun a b : Price × Qty => a.1 ≠ b.1) l :=
      List.pairwise_map.mp hd
    exact ((List.perm_insertionSort (fun a b : Price × Qty => b.1 ≤ a.1) l).pairwise_iff
      (fun h => h.symm)).mpr h1
  exact (hsorted.and hne).imp fun h => lt_of_le_of_ne h.1 (Ne.symm h.2)

theorem insertionSort_strict_asc {l : List (Price × Qty)}
    (hd : List.Pairwise (fun x y => x ≠ y) (l.map Prod.fst)) :
    List.Pairwise (fun a b : Price × Qty => a.1 < b.1)
      (l.insertionSort fun a b => a.1 ≤ b.1) := by
  have hsorted : List.Pairwise (fun a b : Price × Qty => a.1 ≤ b.1)
      (l.insertionSort fun a b => a.1 ≤ b.1) :=
    List.sorted_insertionSort (fun a b : Price × Qty => a.1 ≤ b.1) l
  have hne : List.Pairwise (fun a b : Price × Qty => a.1 ≠ b.1)
      (l.insertionSort fun a b => a.1 ≤ b.1) := by
    have h1 : List.Pairwise (fun a b : Price × Qty => a.1 ≠ b.1) l :=
      List.pairwise_map.mp hd
    exact ((List.perm_insertionSort (fun a b : Price × Qty => a.1 ≤ b.1) l).pairwise_iff
      (fun h => h.symm)).mpr h1
  exact (hsorted.and hne).imp fun h => lt_of_le_of_ne h.1 h.2

set_option maxHeartbeats 1000000 in
/-- C2 counterexample: the Fast driver does not sort the collected snapshot
levels; on the concrete record c2bytes (bids presented in ascending order)
the resulting bid side of the Fast book is not in canonical order (strictly
descending), refuting the claim that both drivers canonicalise. -/
theorem C2_counterexample :
    ¬ List.Chain' (fun x y : Price => y < x)
      ((improvedParseSnapshot (fun n => (n : ℚ)) c2bytes 0).2.2.bids.prices) := by
  intro hc
  have h : (improvedParseSnapshot (fun n => (n : ℚ)) c2bytes 0).2.2.bids.prices =
      [(99 : ℚ), 100] := by decide
  rw [h] at hc
  exact absurd (List.chain'_cons.mp hc).1 (by norm_num)

/-- C2 amended: only the Reference driver sorts the collected non-empty
levels into the side's canonical order before loading (strictly, given that
the record's prices within a side are pairwise distinct); the Fast driver
loads the collected levels in record order without sorting, so its
containers are canonical only when the record already presents each side in
canonical order. -/
theorem C2_snapshot_canonical_order (fb : Nat → Price) (data : List Nat) (offset : Nat)
    (hbd : List.Pairwise (fun x y => x ≠ y) ((basicBidLevels fb data offset).map Prod.fst))
    (had : List.Pairwise (fun x y => x ≠ y) ((basicAskLevels fb data offset).map Prod.fst)) :
    (List.Chain' (fun x y : Level => y.price < x.price)
        ((basicParseSnapshot fb data offset).2.2.bids.levels) ∧
      List.Chain' (fun x y : Level => x.price < y.price)
        ((basicParseSnapshot fb data offset).2.2.asks.levels)) ∧
    ((improvedParseSnapshot fb data offset).2.2.bids.prices =
        (improvedBidLevels fb data offset).map Prod.fst ∧
      (improvedParseSnapshot fb data offset).2.2.asks.prices =
        (improvedAskLevels fb data offset).map Prod.fst) := by
  refine ⟨⟨?_, ?_⟩, by simp only [improvedParseSnapshot], by simp only [improvedParseSnapshot]⟩
  · rw [List.chain'_iff_pairwise]
    show List.Pairwise _ (((basicBidLevels fb data offset).insertionSort
      fun a b => b.1 ≤ a.1).map fun pq => { price := pq.1, quantity := pq.2 : Level })
    rw [List.pairwise_map]
    exact insertionSort_strict_desc hbd
  · rw [List.chain'_iff_pairwise]
    show List.Pairwise _ (((basicAskLevels fb data offset).insertionSort
      fun a b => a.1 ≤ b.1).map fun pq => { price := pq.1, quantity := pq.2 : Level })
    rw [List.pairwise_map]
    exact insertionSort_strict_asc had

set_option maxHeartbeats 1000000 in
/-- Witness for the amended C2 on the concrete record c2bytes. -/
theorem C2_snapshot_canonical_order_witness :
    (List.Pairwise (fun x y => x ≠ y)
        ((basicBidLevels (fun n => (n : ℚ)) c2bytes 0).map Prod.fst) ∧
      List.Pairwise (fun x y => x ≠ y)
        ((basicAskLevels (fun n => (n : ℚ)) c2bytes 0).map Prod.fst)) ∧
    List.Chain' (fun x y : Level => y.price < x.price)
      ((basicParseSnapshot (fun n => (n : ℚ)) c2bytes 0).2.2.bids.levels) :=
  ⟨⟨by decide, by decide⟩,
    ((C2_snapshot_canonical_order (fun n => (n : ℚ)) c2bytes 0
      (by decide) (by decide)).1).1⟩

/-! ## Driver-level claims: sequence filter (C3) and late joiner (C4) -/

theorem wrapped_check_not_gt {offset num len : Nat}
    (h : ¬ offset + INCREMENTAL_HEADER_SIZE + num * INCREMENTAL_SIZE > len) :
    ¬ (offset + INCREMENTAL_HEADER_SIZE + num * INCREMENTAL_SIZE % USIZE_MOD) %
        USIZE_MOD > len := by
  push_neg at h
  push_neg
  calc (offset + INCREMENTAL_HEADER_SIZE + num * INCREMENTAL_SIZE % USIZE_MOD) % USIZE_MOD
      ≤ offset + INCREMENTAL_HEADER_SIZE + num * INCREMENTAL_SIZE % USIZE_MOD :=
        Nat.mod_le _ _
    _ ≤ offset + INCREMENTAL_HEADER_SIZE + num * INCREMENTAL_SIZE :=
        Nat.add_le_add_left (Nat.mod_le _ _) _
    _ ≤ len := h

/-- C3: an incremental record whose sequence number does not exceed
max_snapshot_seq leaves the whole book registry unchanged in all four
drivers: the Basic replay step (whenever the record decodes at all), the
Improved replay step (whenever the declared updates fit the buffer), and
both stream steps in the incremental phase (the Improved stream arm reads
only the 32-byte header, hence the length premise). -/
theorem C3_sequence_filter_frame (fb : Nat → Price) :
    (∀ (data : List Nat) (offset maxS : Nat) (books : Books Basic)
        (sec seq num : Nat) (upds : List (Side × Price × Qty)),
      basicParseIncremental fb data offset = Except.ok (sec, seq, num, upds) →
      seq ≤ maxS →
      basicStep fb data maxS offset books =
        Except.ok (offset + INCREMENTAL_HEADER_SIZE + num * INCREMENTAL_SIZE, books)) ∧
    (∀ (data : List Nat) (offset maxS : Nat) (books : Books ImprovedSide),
      ¬ offset + INCREMENTAL_HEADER_SIZE +
          u64le data (offset + 24) * INCREMENTAL_SIZE > data.length →
      u64le data (offset + 8) ≤ maxS →
      improvedStep fb data maxS offset books =
        Except.ok (offset + INCREMENTAL_HEADER_SIZE +
          u64le data (offset + 24) * INCREMENTAL_SIZE, books)) ∧
    (∀ (st : StreamState Basic) (d : List Nat)
        (sec seq num : Nat) (upds : List (Side × Price × Qty)),
      st.is_snapshot = false →
      basicParseIncremental fb d 0 = Except.ok (sec, seq, num, upds) →
      seq ≤ st.max_snapshot_seq →
      basicStreamStep fb st (StreamMessage.data MessageType.incremental d) =
        Except.ok st) ∧
    (∀ (st : StreamState ImprovedSide) (d : List Nat),
      st.is_snapshot = false →
      INCREMENTAL_HEADER_SIZE ≤ d.length →
      u64le d 8 ≤ st.max_snapshot_seq →
      improvedStreamStep fb st (StreamMessage.data MessageType.incremental d) = st) := by
  refine ⟨?_, ?_, ?_, ?_⟩
  · intro data offset maxS books sec seq num upds hparse hseq
    simp only [basicStep, hparse]
    rw [if_neg (by omega : ¬ maxS < seq)]
  · intro data offset maxS books htrunc hseq
    simp only [improvedStep]
    rw [if_neg (wrapped_check_not_gt htrunc),
      if_neg (by omega : ¬ maxS < u64le data (offset + 8))]
  · intro st d sec seq num upds hphase hparse hseq
    simp only [basicStreamStep, hphase, Bool.false_eq_true, if_false, hparse]
    rw [if_neg (by omega : ¬ st.max_snapshot_seq < seq)]
  · intro st d hphase hlen hseq
    simp only [improvedStreamStep, hphase, Bool.false_eq_true, if_false]
    rw [if_neg (by omega : ¬ st.max_snapshot_seq < u64le d 8)]

/-- Witness for C3 on a concrete incremental record (seq_no 5, one bid
update) against max_snapshot_seq 9. -/
theorem C3_sequence_filter_frame_witness :
    (basicParseIncremental (fun _ => (0 : ℚ))
        (u64bytes 0 ++ u64bytes 5 ++ u64bytes 2 ++ u64bytes 1 ++
          (0 :: u64bytes 3 ++ u64bytes 4)) 0 =
        Except.ok (2, 5, 1, [(Side.B, 0, 4)]) ∧
      (5 : Nat) ≤ 9 ∧
      ¬ 0 + INCREMENTAL_HEADER_SIZE +
          u64le (u64bytes 0 ++ u64bytes 5 ++ u64bytes 2 ++ u64bytes 1 ++
            (0 :: u64bytes 3 ++ u64bytes 4)) (0 + 24) * INCREMENTAL_SIZE >
          (u64bytes 0 ++ u64bytes 5 ++ u64bytes 2 ++ u64bytes 1 ++
            (0 :: u64bytes 3 ++ u64bytes 4)).length) ∧
    basicStep (fun _ => (0 : ℚ))
        (u64bytes 0 ++ u64bytes 5 ++ u64bytes 2 ++ u64bytes 1 ++
          (0 :: u64bytes 3 ++ u64bytes 4)) 9 0 [] =
      Except.ok (0 + INCREMENTAL_HEADER_SIZE + 1 * INCREMENTAL_SIZE, []) ∧
    improvedStep (fun _ => (0 : ℚ))
        (u64bytes 0 ++ u64bytes 5 ++ u64bytes 2 ++ u64bytes 1 ++
          (0 :: u64bytes 3 ++ u64bytes 4)) 9 0 [] =
      Except.ok (0 + INCREMENTAL_HEADER_SIZE +
        u64le (u64bytes 0 ++ u64bytes 5 ++ u64bytes 2 ++ u64bytes 1 ++
          (0 :: u64bytes 3 ++ u64bytes 4)) (0 + 24) * INCREMENTAL_SIZE, []) := by
  refine ⟨⟨by decide, by decide, by decide⟩, ?_, ?_⟩
  · exact (C3_sequence_filter_frame (fun _ => (0 : ℚ))).1
      (u64bytes 0 ++ u64bytes 5 ++ u64bytes 2 ++ u64bytes 1 ++
        (0 :: u64bytes 3 ++ u64bytes 4)) 0 9 [] 2 5 1 [(Side.B, 0, 4)]
      (by decide) (by decide)
  · exact (C3_sequence_filter_frame (fun _ => (0 : ℚ))).2.1
      (u64bytes 0 ++ u64bytes 5 ++ u64bytes 2 ++ u64bytes 1 ++
        (0 :: u64bytes 3 ++ u64bytes 4)) 0 9 [] (by decide) (by decide)

/-- The cold path of the Improved replay driver applies exactly the decoded
update list of the shared wire format: when the Basic update decoder
succeeds, improvedColdGo succeeds and folds Lob::update over the decoded
triples in record order. -/
theorem improvedColdGo_ok (fb : Nat → Price) (data : List Nat) :
    ∀ (n pos : Nat) (book : Lob ImprovedSide) (upds : List (Side × Price × Qty)),
      basicParseUpdates fb data pos n = Except.ok upds →
      improvedColdGo fb data pos n book = Except.ok (applyUpdates book upds) := by
  intro n
  induction n with
  | zero =>
      intro pos book upds hp
      rw [basicParseUpdates] at hp
      have : upds = [] := by
        injection hp with h
        exact h.symm
      subst this
      rfl
  | succ n ih =>
      intro pos book upds hp
      rw [basicParseUpdates] at hp
      by_cases hb : data.length ≤ pos
      · rw [if_pos hb] at hp
        exact Except.noConfusion hp
      · rw [if_neg hb] at hp
        cases hside : Side.from_u8 (data.getD pos 0) with
        | none => rw [hside] at hp; exact Except.noConfusion hp
        | some side =>
            simp only [hside] at hp
            by_cases h9 : data.length < pos + 9
            · rw [if_pos h9] at hp
              exact Except.noConfusion hp
            · rw [if_neg h9] at hp
              by_cases h17 : data.length < pos + 17
              · rw [if_pos h17] at hp
                exact Except.noConfusion hp
              · rw [if_neg h17] at hp
                cases hrest : basicParseUpdates fb data (pos + INCREMENTAL_SIZE) n with
                | error e => rw [hrest] at hp; exact Except.noConfusion hp
                | ok rest =>
                    rw [hrest] at hp
                    injection hp with h
                    subst h
                    simp only [improvedColdGo, hside]
                    rw [ih (pos + INCREMENTAL_SIZE) (book.update side
                      (fb (u64le data (pos + 1))) (u64le data (pos + 9))) rest hrest]
                    rfl

/-- C4: an incremental record for a security with no book in the registry
and with seq_no above max_snapshot_seq creates a new book for that security,
applies the record's decoded updates to it in record order, and stamps
last_update_seq with the record's seq_no -- in both replay drivers. -/
theorem C4_late_joiner (fb : Nat → Price) :
    (∀ (data : List Nat) (offset maxS : Nat) (books : Books Basic)
        (sec seq num : Nat) (upds : List (Side × Price × Qty)),
      basicParseIncremental fb data offset = Except.ok (sec, seq, num, upds) →
      getBook books sec = none → maxS < seq →
      basicStep fb data maxS offset books =
        Except.ok (offset + INCREMENTAL_HEADER_SIZE + num * INCREMENTAL_SIZE,
          insertBook books sec
            { applyUpdates (Lob.new sec (Basic.new true) (Basic.new false)) upds with
              last_update_seq := some seq })) ∧
    (∀ (data : List Nat) (offset maxS : Nat) (books : Books ImprovedSide)
        (upds : List (Side × Price × Qty)),
      ¬ offset + INCREMENTAL_HEADER_SIZE +
          u64le data (offset + 24) * INCREMENTAL_SIZE > data.length →
      basicParseUpdates fb data (offset + INCREMENTAL_HEADER_SIZE)
        (u64le data (offset + 24)) = Except.ok upds →
      getBook books (u64le data (offset + 16)) = none →
      maxS < u64le data (offset + 8) →
      improvedStep fb data maxS offset books =
        Except.ok (offset + INCREMENTAL_HEADER_SIZE +
          u64le data (offset + 24) * INCREMENTAL_SIZE,
          insertBook books (u64le data (offset + 16))
            { applyUpdates (Lob.new (u64le data (offset + 16))
                (ImprovedSide.new true) (ImprovedSide.new false)) upds with
              last_update_seq := some (u64le data (offset + 8)) })) := by
  constructor
  · intro data offset maxS books sec seq num upds hparse hnone hseq
    simp only [basicStep, hparse, if_pos hseq, hnone]
  · intro data offset maxS books upds htrunc hupds hnone hseq
    simp only [improvedStep]
    rw [if_neg (wrapped_check_not_gt htrunc), if_pos hseq, hnone,
      improvedColdGo_ok fb data (u64le data (offset + 24))
        (offset + INCREMENTAL_HEADER_SIZE) _ upds hupds]

/-- Witness for C4 on a concrete incremental record (seq_no 12, security 7,
one ask update) against max_snapshot_seq 9 and an empty registry. -/
theorem C4_late_joiner_witness :
    (basicParseIncremental (fun _ => (0 : ℚ))
        (u64bytes 0 ++ u64bytes 12 ++ u64bytes 7 ++ u64bytes 1 ++
          (1 :: u64bytes 3 ++ u64bytes 4)) 0 =
        Except.ok (7, 12, 1, [(Side.A, 0, 4)]) ∧
      getBook ([] : Books Basic) 7 = none ∧ (9 : Nat) < 12) ∧
    basicStep (fun _ => (0 : ℚ))
        (u64bytes 0 ++ u64bytes 12 ++ u64bytes 7 ++ u64bytes 1 ++
          (1 :: u64bytes 3 ++ u64bytes 4)) 9 0 [] =
      Except.ok (0 + INCREMENTAL_HEADER_SIZE + 1 * INCREMENTAL_SIZE,
        insertBook [] 7
          { applyUpdates (Lob.new 7 (Basic.new true) (Basic.new false))
              [(Side.A, 0, 4)] with
            last_update_seq := some 12 }) := by
  refine ⟨⟨by decide, by decide, by decide⟩, ?_⟩
  exact (C4_late_joiner (fun _ => (0 : ℚ))).1
    (u64bytes 0 ++ u64bytes 12 ++ u64bytes 7 ++ u64bytes 1 ++
      (1 :: u64bytes 3 ++ u64bytes 4)) 0 9 [] 7 12 1 [(Side.A, 0, 4)]
    (by decide) (by decide) (by decide)

/-! ## Stream phase frames (C8), truncation errors (C9), decode order (C10) -/

/-- C8 counterexample: an EndOfSnapshot delivered as a data frame does NOT
transition the phase: from the initial state (snapshot phase) both stream
drivers leave the state unchanged, still in the snapshot phase, refuting the
claim that the data frame has the same effect as the control frame. -/
theorem C8_counterexample :
    basicStreamStep (fun _ => (0 : ℚ)) (initialStreamState Basic)
        (StreamMessage.data MessageType.endOfSnapshot []) =
      Except.ok (initialStreamState Basic) ∧
    (initialStreamState Basic).is_snapshot = true ∧
    improvedStreamStep (fun _ => (0 : ℚ)) (initialStreamState ImprovedSide)
        (StreamMessage.data MessageType.endOfSnapshot []) =
      initialStreamState ImprovedSide ∧
    (initialStreamState ImprovedSide).is_snapshot = true :=
  ⟨rfl, rfl, rfl, rfl⟩

/-- C8 amended: a data frame tagged EndOfSnapshot falls into the catch-all
arm of both stream drivers and is ignored (the state, including the phase
flag and max_snapshot_seq, is unchanged); only the EndOfSnapshot control
frame transitions the phase, by clearing the phase flag and touching nothing
else. -/
theorem C8_end_of_snapshot_frames (fb : Nat → Price) :
    (∀ (st : StreamState Basic) (bytes : List Nat),
      basicStreamStep fb st (StreamMessage.data MessageType.endOfSnapshot bytes) =
        Except.ok st) ∧
    (∀ (st : StreamState Basic),
      basicStreamStep fb st StreamMessage.endOfSnapshot =
        Except.ok { st with is_snapshot := false }) ∧
    (∀ (st : StreamState ImprovedSide) (bytes : List Nat),
      improvedStreamStep fb st (StreamMessage.data MessageType.endOfSnapshot bytes) = st) ∧
    (∀ (st : StreamState ImprovedSide),
      improvedStreamStep fb st StreamMessage.endOfSnapshot =
        { st with is_snapshot := false }) :=
  ⟨fun _ _ => rfl, fun _ => rfl, fun _ _ => rfl, fun _ => rfl⟩

/-- C9 counterexample: two buffers whose truncation is detected at different
offsets (0 for c9short, 32 for c9long, whose first record is complete)
produce the very same error value in each replay driver, so the error cannot
be reporting the offset at which the truncation was detected. -/
theorem C9_counterexample :
    (0 + INCREMENTAL_HEADER_SIZE ≤ c9short.length ∧
      0 + INCREMENTAL_HEADER_SIZE + u64le c9short 24 * INCREMENTAL_SIZE >
        c9short.length) ∧
    (¬ 0 + INCREMENTAL_HEADER_SIZE + u64le c9long 24 * INCREMENTAL_SIZE >
        c9long.length ∧
      32 + INCREMENTAL_HEADER_SIZE ≤ c9long.length ∧
      32 + INCREMENTAL_HEADER_SIZE + u64le c9long (32 + 24) * INCREMENTAL_SIZE >
        c9long.length) ∧
    basicProcessIncrementals (fun _ => (0 : ℚ)) c9short 0 [] =
      Except.error "File is broken, not enough data" ∧
    basicProcessIncrementals (fun _ => (0 : ℚ)) c9long 0 [] =
      Except.error "File is broken, not enough data" ∧
    improvedProcessIncrementals (fun _ => (0 : ℚ)) c9short 0 [] =
      Except.error "Not enough data for updates" ∧
    improvedProcessIncrementals (fun _ => (0 : ℚ)) c9long 0 [] =
      Except.error "Not enough data for updates" := by
  refine ⟨⟨by decide, by decide⟩, ⟨by decide, by decide, by decide⟩, ?_, ?_, ?_, ?_⟩
  · decide
  · decide
  · decide
  · decide

/-- C9 amended: when the pass-2 loop reaches a record that fails the
truncation test the source computes with wrapping 64-bit usize arithmetic
(offset + 32-byte header + num_updates times 17, product and sum taken
modulo 2^64, exceeds the buffer length), each replay driver aborts the pass
with an error; the error is a fixed message ("File is broken, not enough
data" for the Reference driver, "Not enough data for updates" for the Fast
driver) that does not include the offset. -/
theorem C9_truncation_abort (fb : Nat → Price) (data : List Nat)
    (maxS offset fuel : Nat) (books : Books Basic) (booksI : Books ImprovedSide)
    (hheader : offset + INCREMENTAL_HEADER_SIZE ≤ data.length)
    (htrunc : (offset + INCREMENTAL_HEADER_SIZE +
      u64le data (offset + 24) * INCREMENTAL_SIZE % USIZE_MOD) % USIZE_MOD >
      data.length) :
    basicPass2Go fb data maxS (fuel + 1) offset books =
      Except.error "File is broken, not enough data" ∧
    improvedPass2Go fb data maxS (fuel + 1) offset booksI =
      Except.error "Not enough data for updates" := by
  constructor
  · have hstep : basicStep fb data maxS offset books =
        Except.error "File is broken, not enough data" := by
      simp only [basicStep, basicParseIncremental,
        if_neg (by omega : ¬ data.length < offset + INCREMENTAL_HEADER_SIZE),
        if_pos htrunc]
    simp only [basicPass2Go, if_pos hheader, hstep]
  · have hstep : improvedStep fb data maxS offset booksI =
        Except.error "Not enough data for updates" := by
      simp only [improvedStep, if_pos htrunc]
    simp only [improvedPass2Go, if_pos hheader, hstep]

/-- Witness for the amended C9 on the concrete truncated buffer c9short. -/
theorem C9_truncation_abort_witness :
    (0 + INCREMENTAL_HEADER_SIZE ≤ c9short.length ∧
      (0 + INCREMENTAL_HEADER_SIZE +
          u64le c9short (0 + 24) * INCREMENTAL_SIZE % USIZE_MOD) % USIZE_MOD >
        c9short.length) ∧
    basicPass2Go (fun _ => (0 : ℚ)) c9short 0 (0 + 1) 0 [] =
      Except.error "File is broken, not enough data" ∧
    improvedPass2Go (fun _ => (0 : ℚ)) c9short 0 (0 + 1) 0 [] =
      Except.error "Not enough data for updates" :=
  ⟨⟨by decide, by decide⟩,
    C9_truncation_abort (fun _ => (0 : ℚ)) c9short 0 0 0 [] [] (by decide) (by decide)⟩

/-- The Basic update decoder fails whenever some declared update carries a
side byte that Side::from_u8 rejects. -/
theorem basicParseUpdates_invalid (fb : Nat → Price) (data : List Nat) :
    ∀ (n pos : Nat),
      (∃ j, j < n ∧ Side.from_u8 (data.getD (pos + INCREMENTAL_SIZE * j) 0) = none) →
      ∃ e, basicParseUpdates fb data pos n = Except.error e := by
  intro n
  induction n with
  | zero =>
      intro pos h
      obtain ⟨j, hj, _⟩ := h
      exact absurd hj (by omega)
  | succ n ih =>
      intro pos h
      obtain ⟨j, hjn, hj⟩ := h
      by_cases hb : data.length ≤ pos
      · exact ⟨"panic: index out of bounds",
          by simp only [basicParseUpdates, if_pos hb]⟩
      · cases hs : Side.from_u8 (data.getD pos 0) with
        | none =>
            exact ⟨"Invalid side: " ++ toString (data.getD pos 0),
              by simp only [basicParseUpdates, if_neg hb, hs]⟩
        | some side =>
            have hj0 : j ≠ 0 := by
              intro he
              subst he
              rw [show pos + INCREMENTAL_SIZE * 0 = pos by omega] at hj
              rw [hs] at hj
              exact Option.noConfusion hj
            obtain ⟨j', rfl⟩ : ∃ j', j = j' + 1 := ⟨j - 1, by omega⟩
            by_cases h9 : data.length < pos + 9
            · exact ⟨"panic: range end out of bounds",
                by simp only [basicParseUpdates, if_neg hb, hs, if_pos h9]⟩
            · by_cases h17 : data.length < pos + 17
              · exact ⟨"panic: range end out of bounds",
                  by simp only [basicParseUpdates, if_neg hb, hs, if_neg h9,
                    if_pos h17]⟩
              · obtain ⟨e, he⟩ := ih (pos + INCREMENTAL_SIZE)
                  ⟨j', by omega, by
                    rw [show pos + INCREMENTAL_SIZE + INCREMENTAL_SIZE * j' =
                      pos + INCREMENTAL_SIZE * (j' + 1) by ring]
                    exact hj⟩
                exact ⟨e, by simp only [basicParseUpdates, if_neg hb, hs,
                  if_neg h9, if_neg h17, he]⟩

/-- C10: the Basic replay driver decodes every incremental record fully --
side bytes included -- before applying the sequence filter, so a record with
seq_no at most max_snapshot_seq containing an invalid side byte makes the
whole pass fail; the Improved replay driver skips such a filtered record by
advancing the offset, succeeding without reading or validating its update
bytes. -/
theorem C10_decode_before_filter (fb : Nat → Price) :
    (∀ (data : List Nat) (offset maxS fuel : Nat) (books : Books Basic),
      offset + INCREMENTAL_HEADER_SIZE ≤ data.length →
      ¬ offset + INCREMENTAL_HEADER_SIZE +
          u64le data (offset + 24) * INCREMENTAL_SIZE > data.length →
      u64le data (offset + 8) ≤ maxS →
      (∃ j, j < u64le data (offset + 24) ∧
        Side.from_u8 (data.getD
          (offset + INCREMENTAL_HEADER_SIZE + INCREMENTAL_SIZE * j) 0) = none) →
      ∃ e, basicPass2Go fb data maxS (fuel + 1) offset books = Except.error e) ∧
    (∀ (data : List Nat) (offset maxS : Nat) (books : Books ImprovedSide),
      ¬ offset + INCREMENTAL_HEADER_SIZE +
          u64le data (offset + 24) * INCREMENTAL_SIZE > data.length →
      u64le data (offset + 8) ≤ maxS →
      (∃ j, j < u64le data (offset + 24) ∧
        Side.from_u8 (data.getD
          (offset + INCREMENTAL_HEADER_SIZE + INCREMENTAL_SIZE * j) 0) = none) →
      improvedStep fb data maxS offset books =
        Except.ok (offset + INCREMENTAL_HEADER_SIZE +
          u64le data (offset + 24) * INCREMENTAL_SIZE, books)) := by
  constructor
  · intro data offset maxS fuel books hheader htrunc hseq hbad
    obtain ⟨e, he⟩ := basicParseUpdates_invalid fb data (u64le data (offset + 24))
      (offset + INCREMENTAL_HEADER_SIZE) hbad
    have hparse : basicParseIncremental fb data offset = Except.error e := by
      simp only [basicParseIncremental,
        if_neg (by omega : ¬ data.length < offset + INCREMENTAL_HEADER_SIZE),
        if_neg (wrapped_check_not_gt htrunc), he]
    have hstep : basicStep fb data maxS offset books = Except.error e := by
      simp only [basicStep, hparse]
    exact ⟨e, by simp only [basicPass2Go, if_pos hheader, hstep]⟩
  · intro data offset maxS books htrunc hseq _
    simp only [improvedStep]
    rw [if_neg (wrapped_check_not_gt htrunc),
      if_neg (by omega : ¬ maxS < u64le data (offset + 8))]

/-- Witness for C10 on a concrete filtered record (seq_no 5 against
max_snapshot_seq 9) whose single update carries the invalid side byte 2. -/
theorem C10_decode_before_filter_witness :
    (0 + INCREMENTAL_HEADER_SIZE ≤
        (u64bytes 0 ++ u64bytes 5 ++ u64bytes 2 ++ u64bytes 1 ++
          (2 :: u64bytes 3 ++ u64bytes 4)).length ∧
      ¬ 0 + INCREMENTAL_HEADER_SIZE +
          u64le (u64bytes 0 ++ u64bytes 5 ++ u64bytes 2 ++ u64bytes 1 ++
            (2 :: u64bytes 3 ++ u64bytes 4)) (0 + 24) * INCREMENTAL_SIZE >
          (u64bytes 0 ++ u64bytes 5 ++ u64bytes 2 ++ u64bytes 1 ++
            (2 :: u64bytes 3 ++ u64bytes 4)).length ∧
      u64le (u64bytes 0 ++ u64bytes 5 ++ u64bytes 2 ++ u64bytes 1 ++
          (2 :: u64bytes 3 ++ u64bytes 4)) (0 + 8) ≤ 9 ∧
      (∃ j, j < u64le (u64bytes 0 ++ u64bytes 5 ++ u64bytes 2 ++ u64bytes 1 ++
            (2 :: u64bytes 3 ++ u64bytes 4)) (0 + 24) ∧
        Side.from_u8 ((u64bytes 0 ++ u64bytes 5 ++ u64bytes 2 ++ u64bytes 1 ++
          (2 :: u64bytes 3 ++ u64bytes 4)).getD
            (0 + INCREMENTAL_HEADER_SIZE + INCREMENTAL_SIZE * j) 0) = none)) ∧
    (∃ e, basicPass2Go (fun _ => (0 : ℚ))
        (u64bytes 0 ++ u64bytes 5 ++ u64bytes 2 ++ u64bytes 1 ++
          (2 :: u64bytes 3 ++ u64bytes 4)) 9 (0 + 1) 0 [] = Except.error e) ∧
    improvedStep (fun _ => (0 : ℚ))
        (u64bytes 0 ++ u64bytes 5 ++ u64bytes 2 ++ u64bytes 1 ++
          (2 :: u64bytes 3 ++ u64bytes 4)) 9 0 [] =
      Except.ok (0 + INCREMENTAL_HEADER_SIZE +
        u64le (u64bytes 0 ++ u64bytes 5 ++ u64bytes 2 ++ u64bytes 1 ++
          (2 :: u64bytes 3 ++ u64bytes 4)) (0 + 24) * INCREMENTAL_SIZE, []) := by
  refine ⟨⟨by decide, by decide, by decide, by decide⟩, ?_, ?_⟩
  · exact (C10_decode_before_filter (fun _ => (0 : ℚ))).1
      (u64bytes 0 ++ u64bytes 5 ++ u64bytes 2 ++ u64bytes 1 ++
        (2 :: u64bytes 3 ++ u64bytes 4)) 0 9 0 []
      (by decide) (by decide) (by decide) (by decide)
  · exact (C10_decode_before_filter (fun _ => (0 : ℚ))).2
      (u64bytes 0 ++ u64bytes 5 ++ u64bytes 2 ++ u64bytes 1 ++
        (2 :: u64bytes 3 ++ u64bytes 4)) 0 9 []
      (by decide) (by decide) (by decide)

/-- Witness for the amended C8 at the initial stream state. -/
theorem C8_end_of_snapshot_frames_witness :
    basicStreamStep (fun _ => (0 : ℚ)) (initialStreamState Basic)
        (StreamMessage.data MessageType.endOfSnapshot [7]) =
      Except.ok (initialStreamState Basic) ∧
    improvedStreamStep (fun _ => (0 : ℚ)) (initialStreamState ImprovedSide)
        StreamMessage.endOfSnapshot =
      { initialStreamState ImprovedSide with is_snapshot := false } :=
  ⟨(C8_end_of_snapshot_frames (fun _ => (0 : ℚ))).1 (initialStreamState Basic) [7],
    (C8_end_of_snapshot_frames (fun _ => (0 : ℚ))).2.2.2 (initialStreamState ImprovedSide)⟩
